import Mathlib

/-!
# Verification of the kanban board codec and its CRUD facade

Shallow embedding of `src/kanban.py` (board data model, markdown parser,
serializer, due-date helpers) and of the REST mutation handlers in
`src/server.py`, together with proofs about the specification's claims.

Python strings are modelled as Lean `String` (a packed `List Char`); Python
`str.strip()` / `str.lower()` / `str.split("\n")` / `"\n".join(...)` are
modelled by explicit functions over the character list, and the two regular
expressions used by the parser are modelled by equivalent deterministic
character scanners (their equivalence to the backtracking regex semantics is
argued in the doc comment of each scanner).
-/

namespace Kanban

/-- Model of Python's whitespace class (used by `str.strip()` and `\s`). -/
def isWS (c : Char) : Bool := c.isWhitespace

/-- Model of Python's regex word class `\w` (ASCII range: letters, digits, underscore). -/
def isWordChar (c : Char) : Bool := c.isAlphanum || c = '_'

/-- Strip whitespace from both ends of a character list. -/
def stripChars (cs : List Char) : List Char :=
  ((cs.dropWhile isWS).reverse.dropWhile isWS).reverse

/-- Model of Python `str.strip()`. -/
def pyStrip (s : String) : String := ⟨stripChars s.data⟩

/-- Model of Python `str.lower()` on one ASCII character:
uppercase letters are shifted down by 32, everything else is unchanged. -/
def lowerChar (c : Char) : Char :=
  if 65 ≤ c.toNat ∧ c.toNat ≤ 90 then Char.ofNat (c.toNat + 32) else c

/-- Model of Python `str.lower()` (ASCII). -/
def pyLower (s : String) : String := ⟨s.data.map lowerChar⟩

/-- Prepend a character to the first piece of a split result. -/
def consHead (c : Char) : List (List Char) → List (List Char)
  | [] => [[c]]
  | l :: ls => (c :: l) :: ls

/-- Split a character list at every newline character (keeping empty pieces),
as Python `str.split("\n")` does. The result is always non-empty. -/
def splitNlChars : List Char → List (List Char)
  | [] => [[]]
  | c :: rest =>
    if c = '\n' then [] :: splitNlChars rest
    else consHead c (splitNlChars rest)

/-- Model of Python `text.split("\n")`. -/
def splitNl (s : String) : List String := (splitNlChars s.data).map (⟨·⟩)

/-- Model of Python `"\n".join(lines)`. -/
def joinNl : List String → String
  | [] => ""
  | [s] => s
  | s :: rest => s ++ "\n" ++ joinNl rest

/-! ## Data model (`kanban.py`, `Card` and `Board`)

Python dicts preserve insertion order and overwrite values in place, so a
card's `meta` dict is modelled as an association list with an
insert-or-overwrite operation (`metaInsert`). -/

/-- `Card` from `kanban.py`: title, metadata mapping, body text. -/
structure Card where
  title : String
  meta : List (String × String)
  body : String
deriving Repr, DecidableEq

/-- `Board` from `kanban.py`: ordered list of `(name, cards)` columns. -/
structure Board where
  columns : List (String × List Card)
deriving Repr, DecidableEq

/-- `Board.column_names`. -/
def Board.column_names (b : Board) : List String := b.columns.map (·.1)

/-- `Board.get_column`: first column whose name matches case-insensitively. -/
def Board.get_column (b : Board) (name : String) : Option (List Card) :=
  (b.columns.find? (fun p => pyLower p.1 = pyLower name)).map (·.2)

/-- `Board.column_counts`. -/
def Board.column_counts (b : Board) : List (String × Nat) :=
  b.columns.map (fun p => (p.1, p.2.length))

/-- Model of Python dict assignment `meta[key] = val`: overwrite in place if the
key is present (keeping its position), otherwise append. -/
def metaInsert (m : List (String × String)) (k v : String) : List (String × String) :=
  if m.any (fun p => p.1 = k) then
    m.map (fun p => if p.1 = k then (k, v) else p)
  else m ++ [(k, v)]

/-- Model of Python `meta.get(key)`. -/
def metaGet (m : List (String × String)) (k : String) : Option String :=
  (m.find? (fun p => p.1 = k)).map (·.2)

/-- Model of Python `key in meta`. -/
def metaHasKey (m : List (String × String)) (k : String) : Bool :=
  m.any (fun p => p.1 = k)

/-! ## Parser (`kanban.py`, `parse_board` and `_parse_card_block`) -/

/-- The characters the lazy key group `\w[\w\s]*?` may contain. -/
def wordOrWS (c : Char) : Bool := isWordChar c || isWS c

/-- The `:` separator and the value group `\s*(.+)$` of the meta regex: `key`
is the already-captured key run, the argument is what follows it. -/
def matchMetaColon (key : List Char) : List Char → Option (String × String)
  | [] => none
  | c :: r =>
    if c = ':' then
      if r.isEmpty then none
      else if r.all isWS then some (⟨key⟩, ⟨[r.getLastD ' ']⟩)
      else some (⟨key⟩, ⟨r.dropWhile isWS⟩)
    else none

/-- Key-and-value part of the meta regex, applied after `-\s+` has been
consumed: `(\w[\w\s]*?):\s*(.+)$`. -/
def matchMetaTail : List Char → Option (String × String)
  | [] => none
  | c :: cs =>
    if isWordChar c then
      matchMetaColon ((c :: cs).takeWhile wordOrWS) ((c :: cs).dropWhile wordOrWS)
    else none

/-- `matchMeta` on the underlying character list: `-` then at least one
whitespace character, then the key/value tail. -/
def matchMetaChars : List Char → Option (String × String)
  | [] => none
  | c :: rest =>
    if c = '-' then
      if (rest.takeWhile isWS).isEmpty then none
      else matchMetaTail (rest.dropWhile isWS)
    else none

/-- Model of `re.match(r"^-\s+(\w[\w\s]*?):\s*(.+)$", s)`, returning the two
capture groups. The lazy key group `(\w[\w\s]*?)` stops at the first `:`;
since `:` is neither a word character nor whitespace, the match succeeds
exactly when the maximal word-or-space run after `-\s+` is followed by `:`,
and the captured key is that run. After the `:`, greedy `\s*` takes the
maximal whitespace prefix and `(.+)` the (non-empty) remainder, except that
when the remainder is all whitespace, backtracking leaves its last character
to `(.+)`. Inputs are single lines, so `.` never meets a newline. -/
def matchMeta (s : String) : Option (String × String) := matchMetaChars s.data

/-- Model of `stripped.startswith("```")`. -/
def startsFence (s : String) : Bool := s.data.take 3 = "```".data

/-- Loop state of `_parse_card_block`. -/
structure CBState where
  meta : List (String × String)
  body : List String
  fence : Bool
deriving Repr, DecidableEq

/-- One loop iteration of `_parse_card_block`. -/
def cbStep (s : CBState) (line : String) : CBState :=
  let stripped := pyStrip line
  if startsFence stripped then { s with fence := !s.fence }
  else if s.fence then { s with body := s.body ++ [stripped] }
  else
    match matchMeta stripped with
    | some (k, v) => { s with meta := metaInsert s.meta (pyLower (pyStrip k)) (pyStrip v) }
    | none => s

/-- `_parse_card_block`: metadata dict and body text from a card's raw lines. -/
def parseCardBlock (lines : List String) : List (String × String) × String :=
  let s := lines.foldl cbStep ⟨[], [], false⟩
  (s.meta, pyStrip (joinNl s.body))

/-- Model of `re.match(r"^## (.+)$", line)` (lines contain no newline): the
line starts with exactly `## ` and has at least one character after it; the
group is everything after the prefix. -/
def matchH2 (line : String) : Option String :=
  if line.data.take 3 = "## ".data ∧ 3 < line.data.length then some ⟨line.data.drop 3⟩
  else none

/-- Model of `re.match(r"^### (.+)$", line)` (lines contain no newline). -/
def matchH3 (line : String) : Option String :=
  if line.data.take 4 = "### ".data ∧ 4 < line.data.length then some ⟨line.data.drop 4⟩
  else none

/-- Loop state of `parse_board`. -/
structure PState where
  columns : List (String × List Card)
  currentCol : Option String
  currentCards : List Card
  currentCard : Option String
  cardLines : List String
deriving Repr, DecidableEq

/-- `_flush_card` from `parse_board`. -/
def flushCard (s : PState) : PState :=
  match s.currentCard with
  | none => s
  | some t =>
    let mb := parseCardBlock s.cardLines
    { s with currentCards := s.currentCards ++ [⟨t, mb.1, mb.2⟩],
             currentCard := none, cardLines := [] }

/-- `_flush_column` from `parse_board`. Note that when no column is open the
accumulated `currentCards` are *not* reset (mirroring the Python source). -/
def flushColumn (s : PState) : PState :=
  let s := flushCard s
  match s.currentCol with
  | none => s
  | some n =>
    { s with columns := s.columns ++ [(n, s.currentCards)],
             currentCards := [], currentCol := none }

/-- One loop iteration of `parse_board`. -/
def pStep (s : PState) (line : String) : PState :=
  match matchH2 line with
  | some g => { flushColumn s with currentCol := some (pyStrip g) }
  | none =>
    match matchH3 line with
    | some g => { flushCard s with currentCard := some (pyStrip g) }
    | none =>
      match s.currentCard with
      | some _ => { s with cardLines := s.cardLines ++ [line] }
      | none => s

def initPState : PState := ⟨[], none, [], none, []⟩

/-- The line loop of `parse_board` plus the final `_flush_column`. -/
def parseLines (lines : List String) : Board :=
  ⟨(flushColumn (lines.foldl pStep initPState)).columns⟩

/-- `parse_board` applied to the full text of a board file. -/
def parse_board (text : String) : Board := parseLines (splitNl text)

/-! ## Serializer (`kanban.py`, `write_board`) -/

/-- One serialized metadata line `  - key: value`. -/
def metaLine (p : String × String) : String := "  - " ++ p.1 ++ ": " ++ p.2

/-- The fenced body block emitted for a card (empty when the body is empty). -/
def bodyBlock (c : Card) : List String :=
  if c.body = "" then []
  else ["    ```md"] ++ (splitNl c.body).map (fun l => "    " ++ l) ++ ["    ```"]

/-- The lines following a card's heading and blank line (empty when the card
has no metadata and no body, mirroring `if card.meta or card.body:`). -/
def cardTail (c : Card) : List String :=
  if c.meta = [] ∧ c.body = "" then []
  else c.meta.map metaLine ++ bodyBlock c ++ [""]

/-- The lines `write_board` emits for one card. -/
def writeCard (c : Card) : List String :=
  ["### " ++ c.title, ""] ++ cardTail c

/-- The lines `write_board` emits for one column. -/
def writeColumn (p : String × List Card) : List String :=
  ["## " ++ p.1, ""] ++ (p.2.map writeCard).flatten

/-- All lines `write_board` emits for a board. -/
def writeLines (b : Board) : List String := (b.columns.map writeColumn).flatten

/-- `write_board`: the text written to the board file, `"\n".join(lines) + "\n"`. -/
def write_board (b : Board) : String := joinNl (writeLines b) ++ "\n"

/-! ## Character-level lemmas -/

theorem char_eq_of_toNat {c d : Char} (h : c.toNat = d.toNat) : c = d :=
  Char.eq_of_val_eq (UInt32.ext h)

theorem isWS_eq_false_of_33 (c : Char) (h : 33 ≤ c.toNat) : isWS c = false := by
  simp only [isWS, Char.isWhitespace]
  have h1 : c ≠ ' ' := fun he => by subst he; revert h; decide
  have h2 : c ≠ '\t' := fun he => by subst he; revert h; decide
  have h3 : c ≠ '\r' := fun he => by subst he; revert h; decide
  have h4 : c ≠ '\n' := fun he => by subst he; revert h; decide
  simp [h1, h2, h3, h4]

theorem toNat_lowerChar (c : Char) :
    (lowerChar c).toNat = if 65 ≤ c.toNat ∧ c.toNat ≤ 90 then c.toNat + 32 else c.toNat := by
  unfold lowerChar
  split
  · next h =>
    unfold Char.ofNat
    rw [dif_pos (Or.inl (by omega))]
    rfl
  · rfl

theorem lowerChar_eq_self (c : Char) (h : ¬(65 ≤ c.toNat ∧ c.toNat ≤ 90)) :
    lowerChar c = c := by
  unfold lowerChar; rw [if_neg h]

theorem isWS_lowerChar (c : Char) : isWS (lowerChar c) = isWS c := by
  by_cases h : 65 ≤ c.toNat ∧ c.toNat ≤ 90
  · have h1 : (lowerChar c).toNat = c.toNat + 32 := by rw [toNat_lowerChar, if_pos h]
    rw [isWS_eq_false_of_33 (lowerChar c) (by omega), isWS_eq_false_of_33 c (by omega)]
  · rw [lowerChar_eq_self c h]

theorem lowerChar_idem (c : Char) : lowerChar (lowerChar c) = lowerChar c := by
  by_cases h : 65 ≤ c.toNat ∧ c.toNat ≤ 90
  · apply lowerChar_eq_self
    rw [toNat_lowerChar, if_pos h]; omega
  · rw [lowerChar_eq_self c h]
    exact lowerChar_eq_self c h

theorem wordChar_toNat_bound (c : Char) (h : isWordChar c = true) : 48 ≤ c.toNat := by
  simp [isWordChar, Char.isAlphanum, Char.isAlpha, Char.isDigit,
    Char.isUpper, Char.isLower] at h
  rcases h with ((⟨h1, _⟩ | ⟨h1, _⟩) | ⟨h1, _⟩) | h1
  · exact le_trans (by decide : (48:Nat) ≤ ('A').toNat) h1
  · exact le_trans (by decide : (48:Nat) ≤ ('a').toNat) h1
  · exact le_trans (by decide : (48:Nat) ≤ ('0').toNat) h1
  · subst h1; decide

theorem isWS_of_wordChar (c : Char) (h : isWordChar c = true) : isWS c = false :=
  isWS_eq_false_of_33 c (le_trans (by omega) (wordChar_toNat_bound c h))

theorem isWordChar_lowerChar (c : Char) (h : isWordChar c = true) :
    isWordChar (lowerChar c) = true := by
  by_cases hr : 65 ≤ c.toNat ∧ c.toNat ≤ 90
  · have ht : (lowerChar c).toNat = c.toNat + 32 := by rw [toNat_lowerChar, if_pos hr]
    have ha : ('a').toNat = 97 := by decide
    have hz : ('z').toNat = 122 := by decide
    have h1 : 'a' ≤ lowerChar c := by
      show ('a').toNat ≤ (lowerChar c).toNat
      rw [ht, ha]; omega
    have h2 : lowerChar c ≤ 'z' := by
      show (lowerChar c).toNat ≤ ('z').toNat
      rw [ht, hz]; omega
    simp only [isWordChar, Char.isAlphanum, Char.isAlpha, Char.isLower]
    simp only [Bool.or_eq_true, decide_eq_true_eq, Bool.and_eq_true]
    exact Or.inl (Or.inl (Or.inr ⟨h1, h2⟩))
  · rw [lowerChar_eq_self c hr]; exact h

theorem lowerChar_ne_nl (c : Char) (h : c ≠ '\n') : lowerChar c ≠ '\n' := by
  by_cases hr : 65 ≤ c.toNat ∧ c.toNat ≤ 90
  · intro he
    have := congrArg Char.toNat he
    rw [toNat_lowerChar, if_pos hr] at this
    revert this; have : ('\n').toNat = 10 := by decide
    omega
  · rw [lowerChar_eq_self c hr]; exact h

/-! ## `stripChars` lemmas -/

theorem dropWhile_head_false (p : Char → Bool) :
    ∀ (l : List Char) c rest, l.dropWhile p = c :: rest → p c = false := by
  intro l
  induction l with
  | nil => intro c rest h; simp at h
  | cons a as ih =>
    intro c rest h
    by_cases hp : p a
    · rw [List.dropWhile_cons, if_pos hp] at h; exact ih c rest h
    · rw [List.dropWhile_cons, if_neg hp] at h
      cases h; simpa using hp

theorem dropWhile_append_all (p : Char → Bool) (a b : List Char) (h : ∀ x ∈ a, p x) :
    (a ++ b).dropWhile p = b.dropWhile p := by
  induction a with
  | nil => rfl
  | cons c cs ih =>
    rw [List.cons_append, List.dropWhile_cons, if_pos (h c (by simp))]
    exact ih (fun x hx => h x (by simp [hx]))

theorem dropWhile_cons_false (p : Char → Bool) (c : Char) (l : List Char) (h : p c = false) :
    (c :: l).dropWhile p = c :: l := by
  rw [List.dropWhile_cons, if_neg (by simp [h])]

theorem takeWhile_append_all (p : Char → Bool) (a b : List Char) (h : ∀ x ∈ a, p x) :
    (a ++ b).takeWhile p = a ++ b.takeWhile p := by
  induction a with
  | nil => rfl
  | cons c cs ih =>
    rw [List.cons_append, List.takeWhile_cons, if_pos (h c (by simp))]
    rw [ih (fun x hx => h x (by simp [hx])), List.cons_append]

theorem takeWhile_cons_false (p : Char → Bool) (c : Char) (l : List Char) (h : p c = false) :
    (c :: l).takeWhile p = [] := by
  rw [List.takeWhile_cons, if_neg (by simp [h])]

theorem stripChars_nil : stripChars [] = [] := rfl

theorem stripChars_ws_left (w cs : List Char) (h : ∀ x ∈ w, isWS x) :
    stripChars (w ++ cs) = stripChars cs := by
  unfold stripChars
  rw [dropWhile_append_all _ _ _ h]

theorem stripChars_ws_right (cs w : List Char) (h : ∀ x ∈ w, isWS x) :
    stripChars (cs ++ w) = stripChars cs := by
  unfold stripChars
  by_cases hall : ∀ x ∈ cs, isWS x
  · rw [dropWhile_append_all _ _ _ hall, List.dropWhile_eq_nil_iff.2 h,
      List.dropWhile_eq_nil_iff.2 (fun x hx => hall x hx)]
  · rw [List.dropWhile_append]
    have : ¬(cs.dropWhile isWS).isEmpty := by
      simp only [List.isEmpty_iff, List.dropWhile_eq_nil_iff]
      exact hall
    rw [if_neg (by simpa using this), List.reverse_append,
      dropWhile_append_all _ _ _ (by simpa using h)]

theorem stripChars_eq_self (cs : List Char)
    (h1 : ∀ c, cs.head? = some c → isWS c = false)
    (h2 : ∀ c, cs.getLast? = some c → isWS c = false) :
    stripChars cs = cs := by
  cases cs with
  | nil => rfl
  | cons c rest =>
    unfold stripChars
    rw [dropWhile_cons_false _ _ _ (h1 c rfl)]
    cases hrv : (c :: rest).reverse with
    | nil => simp at hrv
    | cons d ds =>
      have hd : d = (c :: rest).getLast (by simp) := by
        have hh := List.head?_reverse (c :: rest)
        rw [hrv, List.getLast?_eq_getLast (c :: rest) (by simp)] at hh
        simpa using hh
      have hws : isWS d = false := by
        apply h2
        rw [List.getLast?_eq_getLast (c :: rest) (by simp), ← hd]
      rw [dropWhile_cons_false _ _ _ hws, ← hrv, List.reverse_reverse]

theorem mem_stripChars {x : Char} {cs : List Char} (h : x ∈ stripChars cs) : x ∈ cs := by
  unfold stripChars at h
  rw [List.mem_reverse] at h
  have h2 := (List.dropWhile_sublist isWS).subset h
  rw [List.mem_reverse] at h2
  exact (List.dropWhile_sublist isWS).subset h2

theorem stripChars_eq_nil_iff (cs : List Char) :
    stripChars cs = [] ↔ ∀ x ∈ cs, isWS x := by
  constructor
  · intro h x hx
    unfold stripChars at h
    rw [List.reverse_eq_nil_iff, List.dropWhile_eq_nil_iff] at h
    have h2 : ∀ y ∈ cs.dropWhile isWS, isWS y = true :=
      fun y hy => h y (List.mem_reverse.2 hy)
    rw [← List.takeWhile_append_dropWhile isWS cs] at hx
    rcases List.mem_append.1 hx with hx | hx
    · exact List.mem_takeWhile_imp hx
    · exact h2 x hx
  · intro h
    unfold stripChars
    rw [List.dropWhile_eq_nil_iff.2 h]
    rfl

theorem head_stripChars_false (cs : List Char) (c : Char) (rest : List Char)
    (h : stripChars cs = c :: rest) : isWS c = false := by
  unfold stripChars at h
  cases hd : cs.dropWhile isWS with
  | nil => rw [hd] at h; simp at h
  | cons a as =>
    have ha : isWS a = false := dropWhile_head_false isWS cs a as hd
    rw [hd] at h
    rw [show (a :: as).reverse = as.reverse ++ [a] by simp] at h
    rw [List.dropWhile_append] at h
    split at h
    · rw [dropWhile_cons_false _ _ _ ha] at h
      simp at h
      obtain ⟨h1, -⟩ := h
      rw [h1] at ha; exact ha
    · rw [List.reverse_append] at h
      simp at h
      obtain ⟨h1, -⟩ := h
      rw [h1] at ha; exact ha

theorem last_stripChars_false (cs : List Char) (c : Char)
    (h : (stripChars cs).getLast? = some c) : isWS c = false := by
  unfold stripChars at h
  rw [List.getLast?_reverse] at h
  cases hd : ((cs.dropWhile isWS).reverse).dropWhile isWS with
  | nil => rw [hd] at h; simp at h
  | cons a as =>
    rw [hd] at h
    simp at h
    rw [← h]
    exact dropWhile_head_false isWS _ a as hd

theorem stripChars_idem (cs : List Char) : stripChars (stripChars cs) = stripChars cs := by
  cases h : stripChars cs with
  | nil => rfl
  | cons c rest =>
    apply stripChars_eq_self
    · intro x hx
      simp at hx
      rw [← hx]
      exact head_stripChars_false cs c rest h
    · intro x hx
      apply last_stripChars_false cs x
      rw [h]; exact hx

/-! ## `pyStrip` / `pyLower` at the `String` level -/

theorem mkStr_data (cs : List Char) : (String.mk cs).data = cs := rfl

theorem pyStrip_data (s : String) : (pyStrip s).data = stripChars s.data := rfl

theorem pyStrip_idem (s : String) : pyStrip (pyStrip s) = pyStrip s :=
  congrArg String.mk (stripChars_idem s.data)

theorem pyStrip_eq_self (s : String)
    (h1 : ∀ c, s.data.head? = some c → isWS c = false)
    (h2 : ∀ c, s.data.getLast? = some c → isWS c = false) :
    pyStrip s = s := by
  apply String.ext
  rw [pyStrip_data]
  exact stripChars_eq_self s.data h1 h2

theorem pyStrip_head_false {s : String} (hs : pyStrip s = s) {c : Char} {rest : List Char}
    (hd : s.data = c :: rest) : isWS c = false := by
  apply head_stripChars_false s.data c rest
  rw [show stripChars s.data = (pyStrip s).data from rfl, hs, hd]

theorem pyStrip_last_false {s : String} (hs : pyStrip s = s) {c : Char}
    (hd : s.data.getLast? = some c) : isWS c = false := by
  apply last_stripChars_false s.data c
  rw [show stripChars s.data = (pyStrip s).data from rfl, hs, hd]

theorem pyStrip_eq_empty_iff (s : String) : pyStrip s = "" ↔ ∀ x ∈ s.data, isWS x := by
  constructor
  · intro h
    exact (stripChars_eq_nil_iff s.data).1 (congrArg String.data h)
  · intro h
    apply String.ext
    exact (stripChars_eq_nil_iff s.data).2 h

theorem pyStrip_append_left (w s : String) (hw : ∀ c ∈ w.data, isWS c) :
    pyStrip (w ++ s) = pyStrip s := by
  apply String.ext
  rw [pyStrip_data, pyStrip_data, String.data_append]
  exact stripChars_ws_left w.data s.data hw

theorem pyStrip_append_right (s w : String) (hw : ∀ c ∈ w.data, isWS c) :
    pyStrip (s ++ w) = pyStrip s := by
  apply String.ext
  rw [pyStrip_data, pyStrip_data, String.data_append]
  exact stripChars_ws_right s.data w.data hw

theorem pyLower_data (s : String) : (pyLower s).data = s.data.map lowerChar := rfl

theorem pyLower_idem (s : String) : pyLower (pyLower s) = pyLower s := by
  apply String.ext
  rw [pyLower_data, pyLower_data, List.map_map]
  exact List.map_congr_left (fun c _ => lowerChar_idem c)

theorem dropWhile_map_lower (l : List Char) :
    (l.map lowerChar).dropWhile isWS = (l.dropWhile isWS).map lowerChar := by
  induction l with
  | nil => rfl
  | cons c cs ih =>
    simp only [List.map_cons, List.dropWhile_cons, isWS_lowerChar c]
    cases h : isWS c
    · simp
    · simpa using ih

theorem pyLower_pyStrip_comm (s : String) : pyStrip (pyLower s) = pyLower (pyStrip s) := by
  apply String.ext
  rw [pyStrip_data, pyLower_data, pyLower_data, pyStrip_data]
  unfold stripChars
  rw [dropWhile_map_lower, ← List.map_reverse, dropWhile_map_lower, ← List.map_reverse]

/-! ## `splitNl` / `joinNl` lemmas -/

theorem mk_data_eta (s : String) : (⟨s.data⟩ : String) = s := rfl

theorem splitNlChars_cons_nl (rest : List Char) :
    splitNlChars ('\n' :: rest) = [] :: splitNlChars rest := by
  simp only [splitNlChars]
  simp

theorem splitNlChars_cons_ne (c : Char) (rest : List Char) (h : c ≠ '\n') :
    splitNlChars (c :: rest) = consHead c (splitNlChars rest) := by
  simp only [splitNlChars]
  rw [if_neg h]

theorem splitNlChars_ne_nil (cs : List Char) : splitNlChars cs ≠ [] := by
  induction cs with
  | nil => simp [splitNlChars]
  | cons c rest ih =>
    by_cases h : c = '\n'
    · subst h; rw [splitNlChars_cons_nl]; simp
    · rw [splitNlChars_cons_ne c rest h]
      cases hr : splitNlChars rest with
      | nil => simp [consHead]
      | cons l ls => simp [consHead]

theorem mem_splitNlChars_no_nl (cs : List Char) :
    ∀ l ∈ splitNlChars cs, '\n' ∉ l := by
  induction cs with
  | nil => intro l hl; simp [splitNlChars] at hl; simp [hl]
  | cons c rest ih =>
    intro l hl
    by_cases h : c = '\n'
    · subst h; rw [splitNlChars_cons_nl] at hl
      rcases List.mem_cons.1 hl with hl | hl
      · simp [hl]
      · exact ih l hl
    · rw [splitNlChars_cons_ne c rest h] at hl
      cases hr : splitNlChars rest with
      | nil => exact absurd hr (splitNlChars_ne_nil rest)
      | cons m ms =>
        rw [hr] at hl
        unfold consHead at hl
        rcases List.mem_cons.1 hl with hl | hl
        · subst hl
          intro hmem
          rcases List.mem_cons.1 hmem with hc | hc
          · exact h hc.symm
          · exact ih m (hr ▸ List.mem_cons_self m ms) hc
        · exact ih l (hr ▸ List.mem_cons_of_mem m hl)

theorem splitNlChars_no_nl (cs : List Char) (h : '\n' ∉ cs) : splitNlChars cs = [cs] := by
  induction cs with
  | nil => rfl
  | cons c rest ih =>
    rw [splitNlChars_cons_ne c rest (fun hc => h (hc ▸ List.mem_cons_self c rest))]
    rw [ih (fun hm => h (List.mem_cons_of_mem c hm))]
    rfl

theorem splitNlChars_append_nl (xs ys : List Char) (h : '\n' ∉ xs) :
    splitNlChars (xs ++ '\n' :: ys) = xs :: splitNlChars ys := by
  induction xs with
  | nil => rw [List.nil_append, splitNlChars_cons_nl]
  | cons c rest ih =>
    rw [List.cons_append]
    rw [splitNlChars_cons_ne _ _ (fun hc => h (hc ▸ List.mem_cons_self c rest))]
    rw [ih (fun hm => h (List.mem_cons_of_mem c hm))]
    rfl

theorem joinNl_cons_cons (s t : String) (r : List String) :
    joinNl (s :: t :: r) = s ++ "\n" ++ joinNl (t :: r) := rfl

theorem joinNl_cons_cons_data (s t : String) (r : List String) :
    (joinNl (s :: t :: r)).data = s.data ++ '\n' :: (joinNl (t :: r)).data := by
  rw [joinNl_cons_cons, String.data_append, String.data_append, List.append_assoc]
  rfl

theorem joinNl_splitNlChars (cs : List Char) :
    (joinNl ((splitNlChars cs).map (⟨·⟩))).data = cs := by
  induction cs with
  | nil => rfl
  | cons c rest ih =>
    by_cases h : c = '\n'
    · subst h
      rw [splitNlChars_cons_nl]
      cases hr : splitNlChars rest with
      | nil => exact absurd hr (splitNlChars_ne_nil rest)
      | cons l ls =>
        rw [hr] at ih
        simp only [List.map_cons] at ih ⊢
        rw [joinNl_cons_cons_data]
        simp only [mkStr_data, List.nil_append]
        rw [ih]
    · rw [splitNlChars_cons_ne c rest h]
      cases hr : splitNlChars rest with
      | nil => exact absurd hr (splitNlChars_ne_nil rest)
      | cons l ls =>
        rw [hr] at ih
        unfold consHead
        cases ls with
        | nil =>
          simp only [List.map_cons, List.map_nil, joinNl, mkStr_data] at ih ⊢
          rw [ih]
        | cons l2 ls2 =>
          simp only [List.map_cons] at ih ⊢
          rw [joinNl_cons_cons_data] at ih ⊢
          simp only [mkStr_data] at ih ⊢
          rw [List.cons_append, ih]

theorem joinNl_splitNl (s : String) : joinNl (splitNl s) = s :=
  String.ext (joinNl_splitNlChars s.data)

theorem splitNlChars_join_nl :
    ∀ ls : List String, (∀ l ∈ ls, '\n' ∉ l.data) → ls ≠ [] →
      splitNlChars ((joinNl ls).data ++ ['\n']) = ls.map String.data ++ [[]] := by
  intro ls
  induction ls with
  | nil => intro _ hne; exact absurd rfl hne
  | cons l rest ih =>
    intro h _
    cases rest with
    | nil =>
      show splitNlChars (l.data ++ '\n' :: []) = [l.data, []]
      rw [splitNlChars_append_nl l.data [] (h l (by simp))]
      rfl
    | cons l2 r2 =>
      rw [joinNl_cons_cons_data, List.append_assoc, List.cons_append]
      rw [splitNlChars_append_nl l.data _ (h l (by simp))]
      rw [ih (fun x hx => h x (List.mem_cons_of_mem l hx)) (by simp)]
      rfl

theorem splitNl_join_nl (ls : List String) (h : ∀ l ∈ ls, '\n' ∉ l.data) (hne : ls ≠ []) :
    splitNl (joinNl ls ++ "\n") = ls ++ [""] := by
  unfold splitNl
  have hdata : (joinNl ls ++ "\n").data = (joinNl ls).data ++ ['\n'] := by
    rw [String.data_append]
  rw [hdata, splitNlChars_join_nl ls h hne, List.map_append, List.map_map]
  have hid : ((⟨·⟩) : List Char → String) ∘ String.data = id := by
    funext x; exact mk_data_eta x
  rw [hid, List.map_id]
  rfl

theorem joinNl_append_empty (bls : List String) (hne : bls ≠ []) :
    joinNl (bls ++ [""]) = joinNl bls ++ "\n" := by
  induction bls with
  | nil => exact absurd rfl hne
  | cons b rest ih =>
    cases rest with
    | nil =>
      show joinNl [b, ""] = b ++ "\n"
      rw [joinNl_cons_cons]
      show b ++ "\n" ++ "" = b ++ "\n"
      apply String.ext
      simp [String.data_append]
    | cons b2 r2 =>
      rw [List.cons_append, List.cons_append, joinNl_cons_cons, joinNl_cons_cons]
      rw [← List.cons_append, ih (by simp)]
      apply String.ext
      simp [String.data_append]

theorem mem_splitNl_no_nl (s : String) : ∀ l ∈ splitNl s, '\n' ∉ l.data := by
  intro l hl
  unfold splitNl at hl
  rcases List.mem_map.1 hl with ⟨cs, hcs, hmk⟩
  rw [← hmk]
  exact mem_splitNlChars_no_nl s.data cs hcs

theorem splitNl_no_nl (s : String) (h : '\n' ∉ s.data) : splitNl s = [s] := by
  unfold splitNl
  rw [splitNlChars_no_nl s.data h]
  simp [mk_data_eta]


/-! ## `matchMeta` computation lemmas -/

theorem matchMetaColon_cons (key : List Char) (c : Char) (r : List Char) :
    matchMetaColon key (c :: r) =
      if c = ':' then
        if r.isEmpty then none
        else if r.all isWS then some (⟨key⟩, ⟨[r.getLastD ' ']⟩)
        else some (⟨key⟩, ⟨r.dropWhile isWS⟩)
      else none := by
  simp only [matchMetaColon]

theorem matchMetaColon_colon (key r : List Char) :
    matchMetaColon key (':' :: r) =
      if r.isEmpty then none
      else if r.all isWS then some (⟨key⟩, ⟨[r.getLastD ' ']⟩)
      else some (⟨key⟩, ⟨r.dropWhile isWS⟩) := by
  rw [matchMetaColon_cons, if_pos rfl]

theorem matchMetaTail_cons (c : Char) (cs : List Char) :
    matchMetaTail (c :: cs) =
      if isWordChar c then
        matchMetaColon ((c :: cs).takeWhile wordOrWS) ((c :: cs).dropWhile wordOrWS)
      else none := by
  simp only [matchMetaTail]

theorem matchMetaChars_cons (c : Char) (rest : List Char) :
    matchMetaChars (c :: rest) =
      if c = '-' then
        if (rest.takeWhile isWS).isEmpty then none
        else matchMetaTail (rest.dropWhile isWS)
      else none := by
  simp only [matchMetaChars]

theorem matchMetaChars_dash (rest : List Char) :
    matchMetaChars ('-' :: rest) =
      if (rest.takeWhile isWS).isEmpty then none
      else matchMetaTail (rest.dropWhile isWS) := by
  rw [matchMetaChars_cons, if_pos rfl]

/-- The meta regex matches the canonical serialized line body
`- key: value` and captures exactly `key` and `value`. -/
theorem matchMeta_serialized (k v : String)
    (hk : ∃ c cs, k.data = c :: cs ∧ isWordChar c = true)
    (hka : ∀ c ∈ k.data, wordOrWS c = true)
    (hv : ∃ c cs, v.data = c :: cs ∧ isWS c = false)
    (hvl : ∀ c, v.data.getLast? = some c → isWS c = false) :
    matchMeta ("- " ++ k ++ ": " ++ v) = some (k, v) := by
  obtain ⟨kc, kcs, hkd, hkw⟩ := hk
  obtain ⟨vc, vcs, hvd, hvw⟩ := hv
  have hsp : isWS ' ' = true := by decide
  have hdata : ("- " ++ k ++ ": " ++ v).data
      = '-' :: ' ' :: (k.data ++ ':' :: ' ' :: v.data) := by
    simp [String.data_append]
  unfold matchMeta
  rw [hdata, matchMetaChars_dash]
  rw [List.takeWhile_cons, if_pos hsp]
  rw [if_neg (by simp)]
  rw [List.dropWhile_cons, if_pos hsp]
  have hdk : (k.data ++ ':' :: ' ' :: v.data).dropWhile isWS
      = k.data ++ ':' :: ' ' :: v.data := by
    rw [hkd, List.cons_append]
    exact dropWhile_cons_false isWS kc _ (isWS_of_wordChar kc hkw)
  rw [hdk, hkd, List.cons_append, matchMetaTail_cons, if_pos hkw, ← List.cons_append, ← hkd]
  have hdrop : (k.data ++ ':' :: ' ' :: v.data).dropWhile wordOrWS = ':' :: ' ' :: v.data := by
    rw [dropWhile_append_all wordOrWS _ _ hka]
    exact dropWhile_cons_false wordOrWS ':' _ (by decide)
  have htake : (k.data ++ ':' :: ' ' :: v.data).takeWhile wordOrWS = k.data := by
    rw [takeWhile_append_all wordOrWS _ _ hka,
      takeWhile_cons_false wordOrWS ':' _ (by decide), List.append_nil]
  rw [hdrop, htake, matchMetaColon_colon]
  rw [if_neg (by simp)]
  have hall : (' ' :: v.data).all isWS = false := by
    have hne : v.data ≠ [] := by rw [hvd]; simp
    rw [List.all_eq_false]
    exact ⟨v.data.getLast hne, List.mem_cons_of_mem ' ' (List.getLast_mem hne),
      by simp [hvl _ (List.getLast?_eq_getLast v.data hne)]⟩
  rw [if_neg (by simp [hall])]
  rw [List.dropWhile_cons, if_pos hsp, hvd,
    dropWhile_cons_false isWS vc vcs hvw, ← hvd, mk_data_eta, mk_data_eta]


/-! ## Well-formedness invariants guaranteed by the parser -/

/-- A backtick character, written by its code point. -/
def btick : Char := Char.ofNat 96

/-- Heading names and card titles produced by the parser: strip-stable and
newline-free. -/
def WFname (n : String) : Prop := pyStrip n = n ∧ '\n' ∉ n.data

/-- Metadata keys produced by the parser: non-empty, strip- and lower-stable,
made of word characters and whitespace, starting with a word character,
newline-free. -/
def WFkey (k : String) : Prop :=
  k ≠ "" ∧ pyStrip k = k ∧ pyLower k = k ∧ (∀ c ∈ k.data, wordOrWS c = true) ∧
  (∀ c cs, k.data = c :: cs → isWordChar c = true) ∧ '\n' ∉ k.data

/-- Metadata values produced by the parser: non-empty, strip-stable,
newline-free. -/
def WFval (v : String) : Prop := v ≠ "" ∧ pyStrip v = v ∧ '\n' ∉ v.data

/-- Card bodies produced by the parser: strip-stable, and every line of the
body is strip-stable and does not start with a fence. -/
def WFbody (b : String) : Prop :=
  pyStrip b = b ∧ ∀ l ∈ splitNl b, pyStrip l = l ∧ startsFence l = false

/-- Metadata mappings produced by the parser: distinct keys, each entry
well-formed. -/
def WFmeta (m : List (String × String)) : Prop :=
  (m.map (·.1)).Nodup ∧ ∀ p ∈ m, WFkey p.1 ∧ WFval p.2

/-- The card shape every parser-produced card has (the title may be empty). -/
def WFcardP (c : Card) : Prop := WFname c.title ∧ WFmeta c.meta ∧ WFbody c.body

/-- The board shape every parser-produced board has. -/
def WFboardP (b : Board) : Prop :=
  ∀ p ∈ b.columns, WFname p.1 ∧ ∀ c ∈ p.2, WFcardP c

/-- Boards that serialize losslessly: parser shape plus non-empty column
names and card titles. -/
def WFboard (b : Board) : Prop :=
  ∀ p ∈ b.columns, (WFname p.1 ∧ p.1 ≠ "") ∧ ∀ c ∈ p.2, WFcardP c ∧ c.title ≠ ""

/-! ## `startsFence` lemmas -/

theorem bticks_data : "```".data = [btick, btick, btick] := by decide

theorem startsFence_false_of_head (c : Char) (cs : List Char) (h : c ≠ btick) :
    startsFence ⟨c :: cs⟩ = false := by
  simp only [startsFence, mkStr_data, bticks_data]
  rw [show (c :: cs).take 3 = c :: cs.take 2 from rfl]
  simp only [List.cons.injEq, decide_eq_false_iff_not, not_and]
  intro hc
  exact absurd hc h

theorem startsFence_empty : startsFence "" = false := by decide

/-! ## Inversion of a successful `matchMeta` on a strip-stable line -/

theorem wordOrWS_lowerChar (c : Char) (h : wordOrWS c = true) :
    wordOrWS (lowerChar c) = true := by
  unfold wordOrWS at h ⊢
  rcases Bool.or_eq_true_iff.1 h with hw | hws
  · rw [isWordChar_lowerChar c hw]; simp
  · rw [isWS_lowerChar c, hws]; simp

theorem getLast?_cons_ne (c : Char) (l : List Char) (h : l ≠ []) :
    (c :: l).getLast? = l.getLast? := by
  cases l with
  | nil => exact absurd rfl h
  | cons b bs => exact List.getLast?_cons_cons

theorem mem_of_getLast?_eq (l : List Char) (x : Char) (h : l.getLast? = some x) : x ∈ l := by
  cases l with
  | nil => simp at h
  | cons a as =>
    have hne : a :: as ≠ [] := by simp
    rw [List.getLast?_eq_getLast _ hne] at h
    simp only [Option.some.injEq] at h
    rw [← h]
    exact List.getLast_mem hne

theorem stripChars_cons_nonws (c : Char) (l : List Char) (h : isWS c = false) :
    ∃ tl, stripChars (c :: l) = c :: tl := by
  unfold stripChars
  rw [dropWhile_cons_false isWS c l h]
  rw [show (c :: l).reverse = l.reverse ++ [c] by simp]
  rw [List.dropWhile_append]
  split
  · rw [dropWhile_cons_false isWS c [] h]
    exact ⟨[], by simp⟩
  · rw [List.reverse_append]
    exact ⟨(l.reverse.dropWhile isWS).reverse, by simp⟩

theorem matchMeta_some_props (s : String) (g1 g2 : String)
    (hs : pyStrip s = s) (hnl : '\n' ∉ s.data)
    (h : matchMeta s = some (g1, g2)) :
    WFkey (pyLower (pyStrip g1)) ∧ WFval (pyStrip g2) := by
  unfold matchMeta at h
  cases hsd : s.data with
  | nil => rw [hsd] at h; exact absurd h (by simp [matchMetaChars])
  | cons c0 rest =>
    rw [hsd, matchMetaChars_cons] at h
    by_cases hc0 : c0 = '-'
    swap
    · rw [if_neg hc0] at h; exact absurd h (by simp)
    rw [if_pos hc0] at h
    by_cases hws1 : (rest.takeWhile isWS).isEmpty
    · rw [if_pos hws1] at h; exact absurd h (by simp)
    rw [if_neg hws1] at h
    cases hr1 : rest.dropWhile isWS with
    | nil => rw [hr1] at h; exact absurd h (by simp [matchMetaTail])
    | cons c1 cs1 =>
      rw [hr1, matchMetaTail_cons] at h
      by_cases hw1 : isWordChar c1 = true
      swap
      · rw [if_neg hw1] at h; exact absurd h (by simp)
      rw [if_pos hw1] at h
      cases hr2 : (c1 :: cs1).dropWhile wordOrWS with
      | nil => rw [hr2] at h; exact absurd h (by simp [matchMetaColon])
      | cons c2 r =>
        rw [hr2, matchMetaColon_cons] at h
        by_cases hc2 : c2 = ':'
        swap
        · rw [if_neg hc2] at h; exact absurd h (by simp)
        rw [if_pos hc2] at h
        by_cases hre : r.isEmpty
        · rw [if_pos hre] at h; exact absurd h (by simp)
        rw [if_neg hre] at h
        have hrne : r ≠ [] := by simpa [List.isEmpty_iff] using hre
        -- decomposition of the whole line
        have hdec : s.data =
            '-' :: (rest.takeWhile isWS ++
              ((c1 :: cs1).takeWhile wordOrWS ++ ':' :: r)) := by
          rw [hsd, hc0]
          congr 1
          rw [show (c1 :: cs1).takeWhile wordOrWS ++ ':' :: r
              = (c1 :: cs1).takeWhile wordOrWS ++ (c1 :: cs1).dropWhile wordOrWS by
                rw [hr2, hc2]]
          rw [List.takeWhile_append_dropWhile wordOrWS (c1 :: cs1), ← hr1]
          rw [List.takeWhile_append_dropWhile isWS rest]
        -- the last character of the line is the last character of `r`,
        -- and (strip-stability) it is not whitespace
        have hlast : s.data.getLast? = r.getLast? := by
          rw [hdec]
          rw [getLast?_cons_ne _ _ (by simp [hrne])]
          rw [List.getLast?_append_of_ne_nil _ (by simp [hrne])]
          rw [List.getLast?_append_of_ne_nil _ (by simp [hrne])]
          exact getLast?_cons_ne ':' r hrne
        have hlastr : r.getLast? = some (r.getLast hrne) := List.getLast?_eq_getLast r hrne
        have hlast_ws : isWS (r.getLast hrne) = false := by
          apply pyStrip_last_false hs
          rw [hlast, hlastr]
        -- hence `r` is not all whitespace and the match takes the generic branch
        have hall : r.all isWS = false := by
          rw [List.all_eq_false]
          exact ⟨r.getLast hrne, List.getLast_mem hrne, by simp [hlast_ws]⟩
        rw [hall] at h
        simp only [if_false, Bool.false_eq_true, Option.some.injEq, Prod.mk.injEq] at h
        obtain ⟨hg1, hg2⟩ := h
        -- membership chains back into `s.data`
        have hmem_key : ∀ c ∈ (c1 :: cs1).takeWhile wordOrWS, c ∈ s.data := by
          intro c hc
          rw [hdec]
          exact List.mem_cons_of_mem _ (List.mem_append_right _ (List.mem_append_left _ hc))
        have hmem_r : ∀ c ∈ r, c ∈ s.data := by
          intro c hc
          rw [hdec]
          exact List.mem_cons_of_mem _ (List.mem_append_right _
            (List.mem_append_right _ (List.mem_cons_of_mem ':' hc)))
        constructor
        · -- the processed key is well-formed
          rw [← hg1]
          have hkeyd : ((c1 :: cs1).takeWhile wordOrWS) = c1 :: cs1.takeWhile wordOrWS := by
            rw [List.takeWhile_cons, if_pos (by simp [wordOrWS, hw1])]
          have hkall : ∀ c ∈ (c1 :: cs1).takeWhile wordOrWS, wordOrWS c = true :=
            fun c hc => List.mem_takeWhile_imp hc
          obtain ⟨tl, htl⟩ := stripChars_cons_nonws c1 (cs1.takeWhile wordOrWS)
            (isWS_of_wordChar c1 hw1)
          have hstripd : (pyStrip ⟨(c1 :: cs1).takeWhile wordOrWS⟩).data
              = c1 :: tl := by
            rw [pyStrip_data, mkStr_data, hkeyd, htl]
          have hsub : ∀ c ∈ c1 :: tl, c ∈ (c1 :: cs1).takeWhile wordOrWS := by
            intro c hc
            rw [← htl] at hc
            have hmem2 := mem_stripChars hc
            rw [← hkeyd] at hmem2
            exact hmem2
          refine ⟨?_, ?_, ?_, ?_, ?_, ?_⟩
          · -- non-empty
            intro hemp
            have := congrArg String.data hemp
            rw [pyLower_data, hstripd] at this
            simp at this
          · -- strip-stable
            rw [pyLower_pyStrip_comm, pyStrip_idem]
          · -- lower-stable
            rw [pyLower_idem]
          · -- word-or-whitespace characters
            intro c hc
            rw [pyLower_data, hstripd] at hc
            rcases List.mem_map.1 hc with ⟨c', hc', hmap⟩
            rw [← hmap]
            exact wordOrWS_lowerChar c' (hkall c' (hsub c' hc'))
          · -- head is a word character
            intro c cs hcd
            rw [pyLower_data, hstripd] at hcd
            simp only [List.map_cons, List.cons.injEq] at hcd
            rw [← hcd.1]
            exact isWordChar_lowerChar c1 hw1
          · -- newline-free
            intro hmem
            rw [pyLower_data, hstripd] at hmem
            rcases List.mem_map.1 hmem with ⟨c', hc', hmap⟩
            have hc's : c' ∈ s.data := hmem_key c' (hsub c' hc')
            have : c' ≠ '\n' := fun he => hnl (he ▸ hc's)
            exact lowerChar_ne_nl c' this hmap
        · -- the processed value is well-formed
          rw [← hg2]
          have hvd : (pyStrip ⟨r.dropWhile isWS⟩).data = stripChars (r.dropWhile isWS) := by
            rw [pyStrip_data, mkStr_data]
          have hdne : r.dropWhile isWS ≠ [] := by
            intro hnil
            have hallw := List.dropWhile_eq_nil_iff.1 hnil
            rw [List.all_eq_false] at hall
            obtain ⟨x, hx, hxw⟩ := hall
            exact hxw (by simp [hallw x hx])
          have hgl : (r.dropWhile isWS).getLast? = some (r.getLast hrne) := by
            have hsw : r.getLast? = (r.dropWhile isWS).getLast? := by
              conv_lhs => rw [← List.takeWhile_append_dropWhile isWS r]
              exact List.getLast?_append_of_ne_nil _ hdne
            rw [← hsw]
            exact hlastr
          refine ⟨?_, ?_, ?_⟩
          · -- non-empty
            intro hemp
            have hall2 := (pyStrip_eq_empty_iff ⟨r.dropWhile isWS⟩).1 hemp
            rw [mkStr_data] at hall2
            have hmem : r.getLast hrne ∈ r.dropWhile isWS :=
              mem_of_getLast?_eq _ _ hgl
            have hcontra := hall2 _ hmem
            rw [hlast_ws] at hcontra
            simp at hcontra
          · rw [pyStrip_idem]
          · intro hmem
            rw [pyStrip_data, mkStr_data] at hmem
            have h1 := mem_stripChars hmem
            have h2 := (List.dropWhile_sublist isWS).subset h1
            exact hnl (hmem_r '\n' h2)

/-! ## `cbStep` computation lemmas -/

theorem cbStep_eq (st : CBState) (line : String) :
    cbStep st line =
      if startsFence (pyStrip line) then { st with fence := !st.fence }
      else if st.fence then { st with body := st.body ++ [pyStrip line] }
      else
        match matchMeta (pyStrip line) with
        | some (k, v) =>
          { st with meta := metaInsert st.meta (pyLower (pyStrip k)) (pyStrip v) }
        | none => st := rfl

theorem metaLine_eq (k v : String) : metaLine (k, v) = "  - " ++ k ++ ": " ++ v := rfl

theorem data_ne_nil_of_ne_empty {v : String} (h : v ≠ "") : v.data ≠ [] := by
  intro hn
  apply h
  apply String.ext
  rw [hn]

theorem pyStrip_metaLine (k v : String)
    (hv : v ≠ "") (hvst : pyStrip v = v) :
    pyStrip ("  - " ++ k ++ ": " ++ v) = "- " ++ k ++ ": " ++ v := by
  have hvne : v.data ≠ [] := data_ne_nil_of_ne_empty hv
  have hsplit : "  - " ++ k ++ ": " ++ v = "  " ++ ("- " ++ k ++ ": " ++ v) := by
    apply String.ext; simp [String.data_append]
  rw [hsplit, pyStrip_append_left "  " _ (by decide)]
  apply pyStrip_eq_self
  · intro c hc
    have hd : ("- " ++ k ++ ": " ++ v).data
        = '-' :: ' ' :: (k.data ++ ':' :: ' ' :: v.data) := by
      simp [String.data_append]
    rw [hd] at hc
    simp only [List.head?_cons, Option.some.injEq] at hc
    subst hc
    decide
  · intro c hc
    have hd : ("- " ++ k ++ ": " ++ v).data
        = ('-' :: ' ' :: (k.data ++ [':', ' '])) ++ v.data := by
      simp [String.data_append]
    rw [hd, List.getLast?_append_of_ne_nil _ hvne] at hc
    exact pyStrip_last_false hvst hc

theorem startsFence_dash_line (k v : String) :
    startsFence ("- " ++ k ++ ": " ++ v) = false := by
  rw [show ("- " ++ k ++ ": " ++ v)
      = (⟨'-' :: (' ' :: (k.data ++ ':' :: ' ' :: v.data))⟩ : String) from
    String.ext (by simp [String.data_append])]
  exact startsFence_false_of_head '-' _ (by decide)

theorem cbStep_meta_line (st : CBState) (k v : String)
    (hfence : st.fence = false) (hk : WFkey k) (hv : WFval v) :
    cbStep st (metaLine (k, v)) = { st with meta := metaInsert st.meta k v } := by
  obtain ⟨hk0, hk1, hk2, hk3, hk4, hk5⟩ := hk
  obtain ⟨hv0, hv1, hv2⟩ := hv
  obtain ⟨kc, kcs, hkd⟩ : ∃ c cs, k.data = c :: cs := by
    cases hkd : k.data with
    | nil => exact absurd hkd (data_ne_nil_of_ne_empty hk0)
    | cons c cs => exact ⟨c, cs, rfl⟩
  have hkw : isWordChar kc = true := hk4 kc kcs hkd
  obtain ⟨vc, vcs, hvd⟩ : ∃ c cs, v.data = c :: cs := by
    cases hvd : v.data with
    | nil => exact absurd hvd (data_ne_nil_of_ne_empty hv0)
    | cons c cs => exact ⟨c, cs, rfl⟩
  have hvw : isWS vc = false := pyStrip_head_false hv1 hvd
  have hstrip : pyStrip (metaLine (k, v)) = "- " ++ k ++ ": " ++ v := by
    rw [metaLine_eq]
    exact pyStrip_metaLine k v hv0 hv1
  rw [cbStep_eq, hstrip, if_neg (by simp [startsFence_dash_line]),
    if_neg (by simp [hfence])]
  rw [matchMeta_serialized k v ⟨kc, kcs, hkd, hkw⟩ hk3 ⟨vc, vcs, hvd, hvw⟩
    (fun c hc => pyStrip_last_false hv1 hc)]
  show ({ st with meta := metaInsert st.meta (pyLower (pyStrip k)) (pyStrip v) } : CBState)
      = { st with meta := metaInsert st.meta k v }
  rw [hk1, hk2, hv1]

theorem cbStep_fence_toggle (st : CBState) (line : String)
    (h : startsFence (pyStrip line) = true) :
    cbStep st line = { st with fence := !st.fence } := by
  rw [cbStep_eq, if_pos h]

theorem cbStep_body_line (st : CBState) (l : String)
    (hfence : st.fence = true) (hst : pyStrip l = l) (hsf : startsFence l = false) :
    cbStep st ("    " ++ l) = { st with body := st.body ++ [l] } := by
  have hstrip : pyStrip ("    " ++ l) = l := by
    rw [pyStrip_append_left "    " l (by decide), hst]
  rw [cbStep_eq, hstrip, if_neg (by simp [hsf]), if_pos hfence]

theorem cbStep_empty_line (st : CBState) (hfence : st.fence = false) :
    cbStep st "" = st := by
  rw [cbStep_eq]
  rw [show pyStrip "" = "" from rfl]
  rw [if_neg (by simp [show startsFence "" = false by decide]),
    if_neg (by simp [hfence])]
  rw [show matchMeta "" = none from rfl]

/-! ## `metaInsert` fold lemmas -/

theorem metaInsert_not_mem (m : List (String × String)) (k v : String)
    (h : ∀ p ∈ m, p.1 ≠ k) : metaInsert m k v = m ++ [(k, v)] := by
  unfold metaInsert
  rw [if_neg]
  intro hany
  rw [List.any_eq_true] at hany
  obtain ⟨p, hp, he⟩ := hany
  exact h p hp (by simpa using he)

theorem foldl_cbStep_meta_lines (ms : List (String × String)) :
    ∀ st : CBState, st.fence = false →
    (∀ p ∈ ms, WFkey p.1 ∧ WFval p.2) →
    (ms.map (·.1)).Nodup →
    (∀ p ∈ ms, ∀ q ∈ st.meta, q.1 ≠ p.1) →
    List.foldl cbStep st (ms.map metaLine) = { st with meta := st.meta ++ ms } := by
  induction ms with
  | nil =>
    intro st _ _ _ _
    cases st; simp
  | cons p rest ih =>
    intro st hf hwf hnd hdisj
    rw [List.map_cons] at hnd
    obtain ⟨hnm, hnd2⟩ := List.nodup_cons.1 hnd
    rw [List.map_cons, List.foldl_cons]
    rw [show metaLine p = metaLine (p.1, p.2) from rfl]
    rw [cbStep_meta_line st p.1 p.2 hf (hwf p (by simp)).1 (hwf p (by simp)).2]
    rw [metaInsert_not_mem st.meta p.1 p.2 (fun q hq => hdisj p (by simp) q hq)]
    rw [ih { st with meta := st.meta ++ [(p.1, p.2)] } hf
      (fun q hq => hwf q (by simp [hq])) hnd2 ?disj]
    · cases st; simp
    case disj =>
      intro q hq r hr
      rcases List.mem_append.1 hr with hr | hr
      · exact hdisj q (by simp [hq]) r hr
      · simp at hr
        rw [hr]
        intro he
        exact hnm (List.mem_map.2 ⟨q, hq, he.symm⟩)

theorem foldl_cbStep_body_lines (ls : List String) :
    ∀ st : CBState, st.fence = true →
    (∀ l ∈ ls, pyStrip l = l ∧ startsFence l = false) →
    List.foldl cbStep st (ls.map (fun l => "    " ++ l)) = { st with body := st.body ++ ls } := by
  induction ls with
  | nil =>
    intro st _ _
    cases st; simp
  | cons l rest ih =>
    intro st hf hwf
    rw [List.map_cons, List.foldl_cons,
      cbStep_body_line st l hf (hwf l (by simp)).1 (hwf l (by simp)).2]
    rw [ih { st with body := st.body ++ [l] } hf (fun x hx => hwf x (by simp [hx]))]
    cases st
    simp

/-! ## Round-trip of one serialized card block -/

theorem parseCardBlock_eq (lines : List String) :
    parseCardBlock lines =
      ((lines.foldl cbStep ⟨[], [], false⟩).meta,
       pyStrip (joinNl (lines.foldl cbStep ⟨[], [], false⟩).body)) := rfl

theorem parseCardBlock_writeCard (c : Card) (h : WFcardP c) :
    parseCardBlock ("" :: cardTail c) = (c.meta, c.body) := by
  obtain ⟨hname, ⟨hnd, hwf⟩, hbody⟩ := h
  have sA : List.foldl cbStep (⟨[], [], false⟩ : CBState) (c.meta.map metaLine)
      = ⟨c.meta, [], false⟩ := by
    rw [foldl_cbStep_meta_lines c.meta ⟨[], [], false⟩ rfl hwf hnd (by simp)]
    simp
  have sE : ∀ bl : List String,
      List.foldl cbStep (⟨c.meta, bl, false⟩ : CBState) [""] = ⟨c.meta, bl, false⟩ := by
    intro bl
    rw [show ([""] : List String) = "" :: [] from rfl, List.foldl_cons,
      cbStep_empty_line _ rfl, List.foldl_nil]
  have sB : List.foldl cbStep (⟨c.meta, [], false⟩ : CBState) (bodyBlock c)
      = ⟨c.meta, if c.body = "" then [] else splitNl c.body, false⟩ := by
    unfold bodyBlock
    by_cases hb : c.body = ""
    · rw [if_pos hb, if_pos hb, List.foldl_nil]
    · rw [if_neg hb, if_neg hb]
      have e1 : ["    ```md"] ++ (splitNl c.body).map (fun l => "    " ++ l) ++ ["    ```"]
          = "    ```md" :: ((splitNl c.body).map (fun l => "    " ++ l) ++ ["    ```"]) := by
        simp
      rw [e1, List.foldl_cons]
      have t1 : cbStep (⟨c.meta, [], false⟩ : CBState) "    ```md" = ⟨c.meta, [], true⟩ := by
        rw [cbStep_fence_toggle _ "    ```md" (by decide)]
        rfl
      rw [t1, List.foldl_append]
      have t2 : List.foldl cbStep (⟨c.meta, [], true⟩ : CBState)
          ((splitNl c.body).map (fun l => "    " ++ l)) = ⟨c.meta, splitNl c.body, true⟩ := by
        rw [foldl_cbStep_body_lines (splitNl c.body) _ rfl hbody.2]
        simp
      rw [t2]
      rw [show (["    ```"] : List String) = "    ```" :: [] from rfl, List.foldl_cons]
      have t3 : cbStep (⟨c.meta, splitNl c.body, true⟩ : CBState) "    ```"
          = ⟨c.meta, splitNl c.body, false⟩ := by
        rw [cbStep_fence_toggle _ "    ```" (by decide)]
        rfl
      rw [t3, List.foldl_nil]
  have hfold : List.foldl cbStep (⟨[], [], false⟩ : CBState) ("" :: cardTail c)
      = ⟨c.meta, if c.body = "" then [] else splitNl c.body, false⟩ := by
    rw [List.foldl_cons, cbStep_empty_line _ rfl]
    unfold cardTail
    by_cases hmb : c.meta = [] ∧ c.body = ""
    · rw [if_pos hmb, List.foldl_nil, if_pos hmb.2, hmb.1]
    · rw [if_neg hmb, List.foldl_append, List.foldl_append, sA, sB, sE]
  rw [parseCardBlock_eq, hfold]
  by_cases hb : c.body = ""
  · rw [if_pos hb]
    rw [show pyStrip (joinNl []) = "" from rfl, hb]
  · rw [if_neg hb]
    rw [joinNl_splitNl, hbody.1]

/-! ## Heading matcher computation lemmas -/

theorem matchH2_hash (n : String) (hn : n ≠ "") : matchH2 ("## " ++ n) = some n := by
  unfold matchH2
  have hd : ("## " ++ n).data = '#' :: '#' :: ' ' :: n.data := by
    simp [String.data_append]
  rw [hd]
  rw [if_pos ?cond]
  · rw [show ('#' :: '#' :: ' ' :: n.data).drop 3 = n.data from rfl, mk_data_eta]
  case cond =>
    constructor
    · rfl
    · have hpos : 0 < n.data.length := List.length_pos.2 (data_ne_nil_of_ne_empty hn)
      simp only [List.length_cons]
      omega

theorem matchH3_hash (t : String) (ht : t ≠ "") : matchH3 ("### " ++ t) = some t := by
  unfold matchH3
  have hd : ("### " ++ t).data = '#' :: '#' :: '#' :: ' ' :: t.data := by
    simp [String.data_append]
  rw [hd]
  rw [if_pos ?cond]
  · rw [show ('#' :: '#' :: '#' :: ' ' :: t.data).drop 4 = t.data from rfl, mk_data_eta]
  case cond =>
    constructor
    · rfl
    · have hpos : 0 < t.data.length := List.length_pos.2 (data_ne_nil_of_ne_empty ht)
      simp only [List.length_cons]
      omega

theorem matchH2_of_hash3 (t : String) : matchH2 ("### " ++ t) = none := by
  unfold matchH2
  rw [if_neg]
  rintro ⟨h1, -⟩
  have hd : ("### " ++ t).data = '#' :: '#' :: '#' :: ' ' :: t.data := by
    simp [String.data_append]
  rw [hd, show ('#' :: '#' :: '#' :: ' ' :: t.data).take 3 = ['#', '#', '#'] from rfl] at h1
  simp at h1

theorem matchH2_none_head (c : Char) (cs : List Char) (h : c ≠ '#') :
    matchH2 ⟨c :: cs⟩ = none := by
  unfold matchH2
  rw [if_neg]
  rintro ⟨h1, -⟩
  rw [mkStr_data, show (c :: cs).take 3 = c :: cs.take 2 from rfl] at h1
  rw [show "## ".data = ['#', '#', ' '] from rfl] at h1
  simp at h1
  exact h h1.1

theorem matchH3_none_head (c : Char) (cs : List Char) (h : c ≠ '#') :
    matchH3 ⟨c :: cs⟩ = none := by
  unfold matchH3
  rw [if_neg]
  rintro ⟨h1, -⟩
  rw [mkStr_data, show (c :: cs).take 4 = c :: cs.take 3 from rfl] at h1
  rw [show "### ".data = ['#', '#', '#', ' '] from rfl] at h1
  simp at h1
  exact h h1.1

/-- Lines that are neither column nor card headings. -/
def contentLine (l : String) : Prop := matchH2 l = none ∧ matchH3 l = none

theorem contentLine_empty : contentLine "" := by
  constructor <;> decide

theorem contentLine_head_space (l : String) (hd : ∃ cs, l.data = ' ' :: cs) :
    contentLine l := by
  obtain ⟨cs, hcs⟩ := hd
  have hl : l = ⟨' ' :: cs⟩ := String.ext (by rw [hcs])
  rw [hl]
  exact ⟨matchH2_none_head ' ' cs (by decide), matchH3_none_head ' ' cs (by decide)⟩

theorem contentLine_cardTail (c : Card) : ∀ l ∈ "" :: cardTail c, contentLine l := by
  intro l hl
  rcases List.mem_cons.1 hl with hl | hl
  · rw [hl]; exact contentLine_empty
  · unfold cardTail at hl
    by_cases hmb : c.meta = [] ∧ c.body = ""
    · rw [if_pos hmb] at hl; simp at hl
    · rw [if_neg hmb] at hl
      rcases List.mem_append.1 hl with hl | hl
      · rcases List.mem_append.1 hl with hl | hl
        · rcases List.mem_map.1 hl with ⟨p, -, hp⟩
          apply contentLine_head_space
          refine ⟨' ' :: '-' :: ' ' :: (p.1.data ++ ':' :: ' ' :: p.2.data), ?_⟩
          rw [← hp]
          rw [show metaLine p = "  - " ++ p.1 ++ ": " ++ p.2 from rfl]
          simp [String.data_append]
        · unfold bodyBlock at hl
          by_cases hb : c.body = ""
          · rw [if_pos hb] at hl; simp at hl
          · rw [if_neg hb] at hl
            rcases List.mem_append.1 hl with hl | hl
            · rcases List.mem_append.1 hl with hl | hl
              · simp at hl
                rw [hl]
                exact contentLine_head_space _ ⟨"   ```md".data, by decide⟩
              · rcases List.mem_map.1 hl with ⟨bl, -, hbl⟩
                apply contentLine_head_space
                rw [← hbl]
                exact ⟨' ' :: ' ' :: ' ' :: bl.data, by simp [String.data_append]⟩
            · simp at hl
              rw [hl]
              exact contentLine_head_space _ ⟨"   ```".data, by decide⟩
      · simp at hl
        rw [hl]
        exact contentLine_empty


/-! ## `pStep` and flush computation lemmas -/

theorem flushCard_none (s : PState) (h : s.currentCard = none) : flushCard s = s := by
  unfold flushCard
  rw [h]

theorem flushCard_some (s : PState) (t : String) (h : s.currentCard = some t) :
    flushCard s = { s with
      currentCards := s.currentCards ++
        [⟨t, (parseCardBlock s.cardLines).1, (parseCardBlock s.cardLines).2⟩],
      currentCard := none, cardLines := [] } := by
  unfold flushCard
  rw [h]

theorem flushCard_currentCard (s : PState) : (flushCard s).currentCard = none := by
  cases h : s.currentCard with
  | none => rw [flushCard_none s h, h]
  | some t => rw [flushCard_some s t h]

theorem flushCard_columns (s : PState) : (flushCard s).columns = s.columns := by
  cases h : s.currentCard with
  | none => rw [flushCard_none s h]
  | some t => rw [flushCard_some s t h]

theorem flushCard_currentCol (s : PState) : (flushCard s).currentCol = s.currentCol := by
  cases h : s.currentCard with
  | none => rw [flushCard_none s h]
  | some t => rw [flushCard_some s t h]

theorem flushColumn_eq (s : PState) :
    flushColumn s =
      match (flushCard s).currentCol with
      | none => flushCard s
      | some n =>
        { flushCard s with
          columns := (flushCard s).columns ++ [(n, (flushCard s).currentCards)],
          currentCards := [], currentCol := none } := rfl

theorem pStep_eq (s : PState) (line : String) :
    pStep s line =
      match matchH2 line with
      | some g => { flushColumn s with currentCol := some (pyStrip g) }
      | none =>
        match matchH3 line with
        | some g => { flushCard s with currentCard := some (pyStrip g) }
        | none =>
          match s.currentCard with
          | some _ => { s with cardLines := s.cardLines ++ [line] }
          | none => s := rfl

theorem pStep_h2 (s : PState) (n : String) (hn : n ≠ "") :
    pStep s ("## " ++ n) = { flushColumn s with currentCol := some (pyStrip n) } := by
  rw [pStep_eq, matchH2_hash n hn]

theorem pStep_h3 (s : PState) (t : String) (ht : t ≠ "") :
    pStep s ("### " ++ t) = { flushCard s with currentCard := some (pyStrip t) } := by
  rw [pStep_eq, matchH2_of_hash3 t, matchH3_hash t ht]

theorem pStep_content_some (s : PState) (line : String) (t : String)
    (hcc : s.currentCard = some t) (hc : contentLine line) :
    pStep s line = { s with cardLines := s.cardLines ++ [line] } := by
  rw [pStep_eq, hc.1, hc.2, hcc]

theorem pStep_content_none (s : PState) (line : String)
    (hcc : s.currentCard = none) (hc : contentLine line) :
    pStep s line = s := by
  rw [pStep_eq, hc.1, hc.2, hcc]

theorem foldl_pStep_content (ls : List String) :
    ∀ (s : PState) (t : String), s.currentCard = some t →
    (∀ l ∈ ls, contentLine l) →
    List.foldl pStep s ls = { s with cardLines := s.cardLines ++ ls } := by
  induction ls with
  | nil =>
    intro s t _ _
    cases s; simp
  | cons l rest ih =>
    intro s t hcc hc
    rw [List.foldl_cons, pStep_content_some s l t hcc (hc l (by simp))]
    rw [ih { s with cardLines := s.cardLines ++ [l] } t hcc
      (fun x hx => hc x (by simp [hx]))]
    cases s; simp

/-! ## Processing the serialized cards of one column -/

theorem foldl_pStep_cards (cards : List Card) :
    ∀ s : PState, (flushCard s).cardLines = [] →
    (∀ c ∈ cards, WFcardP c ∧ c.title ≠ "") →
    flushCard (List.foldl pStep s ((cards.map writeCard).flatten))
        = { flushCard s with currentCards := (flushCard s).currentCards ++ cards }
    ∧ (List.foldl pStep s ((cards.map writeCard).flatten)).columns = s.columns
    ∧ (List.foldl pStep s ((cards.map writeCard).flatten)).currentCol = s.currentCol := by
  induction cards with
  | nil =>
    intro s _ _
    refine ⟨?_, rfl, rfl⟩
    show flushCard s = { flushCard s with currentCards := (flushCard s).currentCards ++ [] }
    cases flushCard s
    simp
  | cons c rest ih =>
    intro s hclean hwf
    obtain ⟨hcP, htne⟩ := hwf c (by simp)
    have hstript : pyStrip c.title = c.title := hcP.1.1
    rcases hF : flushCard s with ⟨cols, col, cards0, cc, cl⟩
    have hccn : cc = none := by
      have := flushCard_currentCard s
      rw [hF] at this
      exact this
    have hcln : cl = [] := by
      rw [hF] at hclean
      exact hclean
    subst hccn
    subst hcln
    rw [show (((c :: rest).map writeCard).flatten)
        = writeCard c ++ ((rest.map writeCard).flatten) from by simp]
    rw [List.foldl_append]
    rw [show writeCard c = ("### " ++ c.title) :: ("" :: cardTail c) from rfl]
    rw [List.foldl_cons, pStep_h3 s c.title htne, hstript, hF]
    rw [foldl_pStep_content ("" :: cardTail c)
      ⟨cols, col, cards0, some c.title, []⟩ c.title rfl (contentLine_cardTail c)]
    have hs2 : ({ (⟨cols, col, cards0, some c.title, []⟩ : PState) with
        cardLines := (⟨cols, col, cards0, some c.title, []⟩ : PState).cardLines
          ++ ("" :: cardTail c) } : PState)
        = ⟨cols, col, cards0, some c.title, "" :: cardTail c⟩ := by
      simp
    rw [hs2]
    have hflush2 : flushCard (⟨cols, col, cards0, some c.title, "" :: cardTail c⟩ : PState)
        = ⟨cols, col, cards0 ++ [c], none, []⟩ := by
      rw [flushCard_some _ c.title rfl]
      rw [show (⟨cols, col, cards0, some c.title, "" :: cardTail c⟩ : PState).cardLines
          = "" :: cardTail c from rfl]
      rw [parseCardBlock_writeCard c hcP]
    obtain ⟨ih1, ih2, ih3⟩ := ih (⟨cols, col, cards0, some c.title, "" :: cardTail c⟩ : PState)
      (by rw [hflush2]) (fun x hx => hwf x (by simp [hx]))
    rw [hflush2] at ih1
    refine ⟨?_, ?_, ?_⟩
    · rw [ih1]
      simp
    · rw [ih2, show (⟨cols, col, cards0, some c.title, "" :: cardTail c⟩ : PState).columns
        = cols from rfl, ← flushCard_columns s, hF]
    · rw [ih3, show (⟨cols, col, cards0, some c.title, "" :: cardTail c⟩ : PState).currentCol
        = col from rfl, ← flushCard_currentCol s, hF]


/-! ## Processing all serialized columns -/

theorem flushColumn_currentCard (s : PState) : (flushColumn s).currentCard = none := by
  rw [flushColumn_eq]
  cases h : (flushCard s).currentCol with
  | none => exact flushCard_currentCard s
  | some n => exact flushCard_currentCard s

theorem flushColumn_currentCol_none (s : PState) : (flushColumn s).currentCol = none := by
  rw [flushColumn_eq]
  cases h : (flushCard s).currentCol with
  | none => exact h
  | some n => rfl

theorem foldl_pStep_columns (cols : List (String × List Card)) :
    ∀ s : PState,
    (∀ p ∈ cols, (WFname p.1 ∧ p.1 ≠ "") ∧ ∀ c ∈ p.2, WFcardP c ∧ c.title ≠ "") →
    (flushColumn s).currentCards = [] → (flushColumn s).cardLines = [] →
    flushColumn (List.foldl pStep s ((cols.map writeColumn).flatten))
        = { flushColumn s with columns := (flushColumn s).columns ++ cols } := by
  induction cols with
  | nil =>
    intro s _ _ _
    show flushColumn s = { flushColumn s with columns := (flushColumn s).columns ++ [] }
    cases flushColumn s
    simp
  | cons p rest ih =>
    intro s hwf hcards hlines
    obtain ⟨⟨hname, hne⟩, hcardswf⟩ := hwf p (by simp)
    rcases hH : flushColumn s with ⟨cols0, col0, cards0, cc0, cl0⟩
    have hcol0 : col0 = none := by
      have h1 := flushColumn_currentCol_none s
      rw [hH] at h1
      exact h1
    have hcc0 : cc0 = none := by
      have h1 := flushColumn_currentCard s
      rw [hH] at h1
      exact h1
    have hcards0 : cards0 = [] := by rw [hH] at hcards; exact hcards
    have hcl0 : cl0 = [] := by rw [hH] at hlines; exact hlines
    subst hcol0; subst hcc0; subst hcards0; subst hcl0
    rw [show (((p :: rest).map writeColumn).flatten)
        = writeColumn p ++ ((rest.map writeColumn).flatten) from by simp]
    rw [List.foldl_append]
    rw [show writeColumn p = ("## " ++ p.1) :: "" :: ((p.2.map writeCard).flatten) from rfl]
    rw [List.foldl_cons, pStep_h2 s p.1 hne, hname.1, hH]
    rw [List.foldl_cons]
    rw [show ({ (⟨cols0, none, [], none, []⟩ : PState) with currentCol := some p.1 } : PState)
        = (⟨cols0, some p.1, [], none, []⟩ : PState) from rfl]
    rw [pStep_content_none (⟨cols0, some p.1, [], none, []⟩ : PState) "" rfl contentLine_empty]
    obtain ⟨hc1, hc2, hc3⟩ := foldl_pStep_cards p.2 (⟨cols0, some p.1, [], none, []⟩ : PState)
      (by rw [flushCard_none _ rfl]) hcardswf
    rw [flushCard_none (⟨cols0, some p.1, [], none, []⟩ : PState) rfl] at hc1
    have hflushcol : flushColumn (List.foldl pStep (⟨cols0, some p.1, [], none, []⟩ : PState)
        ((p.2.map writeCard).flatten)) = ⟨cols0 ++ [(p.1, p.2)], none, [], none, []⟩ := by
      rw [flushColumn_eq, hc1]
      simp
    rw [ih (List.foldl pStep (⟨cols0, some p.1, [], none, []⟩ : PState)
        ((p.2.map writeCard).flatten))
      (fun q hq => hwf q (by simp [hq]))
      (by rw [hflushcol]) (by rw [hflushcol])]
    rw [hflushcol]
    simp

/-! ## A trailing blank line does not change the parse -/

theorem cbStep_empty_fence (st : CBState) (hf : st.fence = true) :
    cbStep st "" = { st with body := st.body ++ [""] } := by
  rw [cbStep_eq]
  rw [show pyStrip "" = "" from rfl]
  rw [if_neg (by simp [show startsFence "" = false by decide]), if_pos hf]

theorem parseCardBlock_append_empty (ls : List String) :
    parseCardBlock (ls ++ [""]) = parseCardBlock ls := by
  rw [parseCardBlock_eq, parseCardBlock_eq, List.foldl_append]
  rw [show ([""] : List String) = "" :: [] from rfl, List.foldl_cons, List.foldl_nil]
  cases hf : (List.foldl cbStep (⟨[], [], false⟩ : CBState) ls).fence
  · rw [cbStep_empty_line _ hf]
  · rw [cbStep_empty_fence _ hf]
    simp only
    congr 1
    by_cases hb : (List.foldl cbStep (⟨[], [], false⟩ : CBState) ls).body = []
    · rw [hb]
      rfl
    · rw [joinNl_append_empty _ hb, pyStrip_append_right _ "\n" (by decide)]

theorem parseLines_append_empty (ls : List String) :
    parseLines (ls ++ [""]) = parseLines ls := by
  unfold parseLines
  rw [List.foldl_append]
  rw [show ([""] : List String) = "" :: [] from rfl, List.foldl_cons, List.foldl_nil]
  cases hcc : (List.foldl pStep initPState ls).currentCard with
  | none => rw [pStep_content_none _ "" hcc contentLine_empty]
  | some t =>
    rw [pStep_content_some _ "" t hcc contentLine_empty]
    congr 1
    have hfc : flushCard { List.foldl pStep initPState ls with
        cardLines := (List.foldl pStep initPState ls).cardLines ++ [""] }
        = flushCard (List.foldl pStep initPState ls) := by
      rw [flushCard_some ({ List.foldl pStep initPState ls with
        cardLines := (List.foldl pStep initPState ls).cardLines ++ [""] }) t hcc]
      rw [flushCard_some (List.foldl pStep initPState ls) t hcc]
      rcases List.foldl pStep initPState ls with ⟨cols, col, cards, cc, cl⟩
      simp [parseCardBlock_append_empty]
    rw [flushColumn_eq, flushColumn_eq, hfc]

/-! ## The serializer emits newline-free lines on well-formed boards -/

theorem writeLines_no_nl (b : Board) (h : WFboard b) :
    ∀ l ∈ writeLines b, '\n' ∉ l.data := by
  intro l hl
  unfold writeLines at hl
  rw [List.mem_flatten] at hl
  obtain ⟨ls, hls, hlin⟩ := hl
  rw [List.mem_map] at hls
  obtain ⟨p, hp, hwc⟩ := hls
  obtain ⟨⟨hname, -⟩, hcards⟩ := h p hp
  rw [← hwc] at hlin
  unfold writeColumn at hlin
  rcases List.mem_cons.1 hlin with hl1 | hlin
  · rw [hl1]
    intro hmem
    rw [show ("## " ++ p.1).data = '#' :: '#' :: ' ' :: p.1.data from by
      simp [String.data_append]] at hmem
    simp at hmem
    exact hname.2 hmem
  rcases List.mem_cons.1 hlin with hl1 | hlin
  · rw [hl1]; simp
  simp only [List.append_eq, List.nil_append] at hlin
  rw [List.mem_flatten] at hlin
  obtain ⟨ls2, hls2, hlin2⟩ := hlin
  rw [List.mem_map] at hls2
  obtain ⟨c, hc, hwc2⟩ := hls2
  obtain ⟨⟨htname, hmeta, hbody⟩, -⟩ := hcards c hc
  rw [← hwc2] at hlin2
  unfold writeCard at hlin2
  rcases List.mem_cons.1 hlin2 with hl1 | hlin2
  · rw [hl1]
    intro hmem
    rw [show ("### " ++ c.title).data = '#' :: '#' :: '#' :: ' ' :: c.title.data from by
      simp [String.data_append]] at hmem
    simp at hmem
    exact htname.2 hmem
  rcases List.mem_cons.1 hlin2 with hl1 | hlin2
  · rw [hl1]; simp
  simp only [List.append_eq, List.nil_append] at hlin2
  unfold cardTail at hlin2
  by_cases hmb : c.meta = [] ∧ c.body = ""
  · rw [if_pos hmb] at hlin2; simp at hlin2
  rw [if_neg hmb] at hlin2
  rcases List.mem_append.1 hlin2 with hlin3 | hlin3
  swap
  · simp at hlin3
    rw [hlin3]; simp
  rcases List.mem_append.1 hlin3 with hlin4 | hlin4
  · rw [List.mem_map] at hlin4
    obtain ⟨q, hq, hql⟩ := hlin4
    obtain ⟨hkey, hval⟩ := hmeta.2 q hq
    rw [← hql]
    rw [metaLine_eq]
    intro hmem
    rw [show ("  - " ++ q.1 ++ ": " ++ q.2).data
        = ' ' :: ' ' :: '-' :: ' ' :: (q.1.data ++ ':' :: ' ' :: q.2.data) from by
      simp [String.data_append]] at hmem
    simp at hmem
    rcases hmem with hmem | hmem
    · exact hkey.2.2.2.2.2 hmem
    · exact hval.2.2 hmem
  · unfold bodyBlock at hlin4
    by_cases hb : c.body = ""
    · rw [if_pos hb] at hlin4; simp at hlin4
    rw [if_neg hb] at hlin4
    rcases List.mem_append.1 hlin4 with hlin5 | hlin5
    swap
    · simp at hlin5
      rw [hlin5]; simp
    rcases List.mem_append.1 hlin5 with hlin6 | hlin6
    · simp at hlin6
      rw [hlin6]; simp
    · rw [List.mem_map] at hlin6
      obtain ⟨bl, hbl, hbll⟩ := hlin6
      rw [← hbll]
      intro hmem
      rw [show ("    " ++ bl).data = ' ' :: ' ' :: ' ' :: ' ' :: bl.data from by
        simp [String.data_append]] at hmem
      simp at hmem
      exact mem_splitNl_no_nl c.body bl hbl hmem

/-! ## Main round-trip theorem: serialize then parse is the identity -/

theorem writeLines_ne_nil (b : Board) (hne : b.columns ≠ []) : writeLines b ≠ [] := by
  unfold writeLines
  cases hc : b.columns with
  | nil => exact absurd hc hne
  | cons p rest =>
    rw [List.map_cons]
    intro hfl
    rw [show writeColumn p = ("## " ++ p.1) :: "" :: ((p.2.map writeCard).flatten) from rfl] at hfl
    simp at hfl

theorem parse_write_board (b : Board) (h : WFboard b) :
    parse_board (write_board b) = b := by
  by_cases hne : b.columns = []
  · obtain ⟨cols⟩ := b
    have hc : cols = [] := hne
    subst hc
    decide
  · unfold parse_board write_board
    rw [splitNl_join_nl (writeLines b) (writeLines_no_nl b h) (writeLines_ne_nil b hne)]
    rw [parseLines_append_empty]
    unfold parseLines
    rw [show writeLines b = ((b.columns.map writeColumn).flatten) from rfl]
    rw [foldl_pStep_columns b.columns initPState h rfl rfl,
      show flushColumn initPState = initPState from rfl]
    cases b
    simp [initPState]

/-! ## Lines of a stripped join come from the joined lines -/

/-- Drop trailing whitespace only. -/
def dropRightWs (cs : List Char) : List Char := (cs.reverse.dropWhile isWS).reverse

theorem stripChars_eq_dropRightWs (c : Char) (rest : List Char) (h : isWS c = false) :
    stripChars (c :: rest) = dropRightWs (c :: rest) := by
  unfold stripChars dropRightWs
  rw [dropWhile_cons_false isWS c rest h]

theorem dropRightWs_eq_self (cs : List Char) (hne : cs ≠ [])
    (h : ∀ c, cs.getLast? = some c → isWS c = false) : dropRightWs cs = cs := by
  unfold dropRightWs
  cases hrv : cs.reverse with
  | nil => simp at hrv; exact absurd hrv hne
  | cons d ds =>
    have hd : cs.getLast? = some d := by
      rw [← List.head?_reverse, hrv]
      rfl
    rw [dropWhile_cons_false isWS d ds (h d hd), ← hrv, List.reverse_reverse]

theorem dropRightWs_append_ws (a w : List Char) (hw : ∀ c ∈ w, isWS c) :
    dropRightWs (a ++ w) = dropRightWs a := by
  unfold dropRightWs
  rw [List.reverse_append, dropWhile_append_all isWS w.reverse a.reverse
    (fun c hc => hw c (List.mem_reverse.1 hc))]

theorem dropRightWs_append_keep (a r : List Char) (hr : ¬ r.all isWS = true) :
    dropRightWs (a ++ '\n' :: r) = a ++ '\n' :: dropRightWs r := by
  unfold dropRightWs
  rw [show ('\n' :: r) = ['\n'] ++ r from rfl, ← List.append_assoc, List.reverse_append]
  rw [List.dropWhile_append]
  have hne : r.reverse.dropWhile isWS ≠ [] := by
    intro hnil
    apply hr
    rw [List.all_eq_true]
    intro c hc
    exact List.dropWhile_eq_nil_iff.1 hnil c (List.mem_reverse.2 hc)
  rw [if_neg (by simpa using hne)]
  rw [List.reverse_append, List.reverse_append]
  simp

theorem mem_splitNl_dropRightWs_joinNl :
    ∀ bls : List String, (∀ l ∈ bls, pyStrip l = l ∧ '\n' ∉ l.data) →
    ∀ x ∈ splitNl ⟨dropRightWs ((joinNl bls).data)⟩, x ∈ bls ∨ x = "" := by
  intro bls
  induction bls with
  | nil =>
    intro _ x hx
    right
    rw [show joinNl [] = "" from rfl] at hx
    rw [show dropRightWs ("".data) = [] from rfl] at hx
    rw [show splitNl ⟨[]⟩ = [""] from rfl] at hx
    simpa using hx
  | cons l rest ih =>
    intro hwf x hx
    cases hrest : rest with
    | nil =>
      subst hrest
      rw [show joinNl [l] = l from rfl] at hx
      by_cases hl : l = ""
      · right
        rw [hl] at hx
        rw [show dropRightWs ("".data) = [] from rfl] at hx
        rw [show splitNl ⟨[]⟩ = [""] from rfl] at hx
        simpa using hx
      · left
        have hst := (hwf l (by simp)).1
        have hnl := (hwf l (by simp)).2
        rw [dropRightWs_eq_self l.data (data_ne_nil_of_ne_empty hl)
          (fun c hc => pyStrip_last_false hst hc)] at hx
        rw [mk_data_eta, splitNl_no_nl l hnl] at hx
        simp at hx
        simp [hx]
    | cons l2 r2 =>
      subst hrest
      have hdata : (joinNl (l :: l2 :: r2)).data
          = l.data ++ '\n' :: (joinNl (l2 :: r2)).data :=
        joinNl_cons_cons_data l l2 r2
      rw [hdata] at hx
      have hlnl : '\n' ∉ l.data := (hwf l (by simp)).2
      by_cases hall : ((joinNl (l2 :: r2)).data).all isWS = true
      · -- the rest is pure whitespace: everything after `l` is stripped away
        rw [dropRightWs_append_ws l.data ('\n' :: (joinNl (l2 :: r2)).data) ?allws] at hx
        case allws =>
          intro c hc
          rcases List.mem_cons.1 hc with hc | hc
          · rw [hc]; decide
          · exact List.all_eq_true.1 hall c hc
        by_cases hl : l = ""
        · right
          rw [hl] at hx
          rw [show dropRightWs ("".data) = [] from rfl] at hx
          rw [show splitNl ⟨[]⟩ = [""] from rfl] at hx
          simpa using hx
        · left
          have hst := (hwf l (by simp)).1
          rw [dropRightWs_eq_self l.data (data_ne_nil_of_ne_empty hl)
            (fun c hc => pyStrip_last_false hst hc)] at hx
          rw [mk_data_eta, splitNl_no_nl l hlnl] at hx
          simp at hx
          simp [hx]
      · rw [dropRightWs_append_keep l.data _ hall] at hx
        have hsplit : splitNl ⟨l.data ++ '\n' :: dropRightWs ((joinNl (l2 :: r2)).data)⟩
            = l :: splitNl ⟨dropRightWs ((joinNl (l2 :: r2)).data)⟩ := by
          unfold splitNl
          rw [mkStr_data, splitNlChars_append_nl l.data _ hlnl]
          rw [List.map_cons, mk_data_eta]
        rw [hsplit] at hx
        rcases List.mem_cons.1 hx with hx | hx
        · left; simp [hx]
        · rcases ih (fun q hq => hwf q (by simp [hq])) x hx with h1 | h1
          · left; simp [h1]
          · right; exact h1

theorem mem_splitNl_pyStrip_joinNl :
    ∀ bls : List String, (∀ l ∈ bls, pyStrip l = l ∧ '\n' ∉ l.data) →
    ∀ x ∈ splitNl (pyStrip (joinNl bls)), x ∈ bls ∨ x = "" := by
  intro bls
  induction bls with
  | nil =>
    intro _ x hx
    right
    rw [show pyStrip (joinNl []) = "" from rfl] at hx
    rw [show splitNl "" = [""] from rfl] at hx
    simpa using hx
  | cons l rest ih =>
    intro hwf x hx
    by_cases hl : l = ""
    · subst hl
      cases hrest : rest with
      | nil =>
        subst hrest
        right
        rw [show pyStrip (joinNl [""]) = "" from rfl] at hx
        rw [show splitNl "" = [""] from rfl] at hx
        simpa using hx
      | cons l2 r2 =>
        subst hrest
        have hdata : pyStrip (joinNl ("" :: l2 :: r2)) = pyStrip (joinNl (l2 :: r2)) := by
          apply String.ext
          rw [pyStrip_data, pyStrip_data, joinNl_cons_cons_data]
          rw [show ("".data ++ '\n' :: (joinNl (l2 :: r2)).data)
              = ['\n'] ++ (joinNl (l2 :: r2)).data from rfl]
          exact stripChars_ws_left ['\n'] _ (by decide)
        rw [hdata] at hx
        rcases ih (fun q hq => hwf q (by simp [hq])) x hx with h1 | h1
        · left; simp [h1]
        · right; exact h1
    · -- `l` is non-empty, so the left strip is a no-op and only the right
      -- strip matters
      have hst := (hwf l (by simp)).1
      obtain ⟨c0, cs0, hld⟩ : ∃ c cs, l.data = c :: cs := by
        cases hld : l.data with
        | nil => exact absurd hld (data_ne_nil_of_ne_empty hl)
        | cons c cs => exact ⟨c, cs, rfl⟩
      have hc0 : isWS c0 = false := pyStrip_head_false hst hld
      have hjd : ∃ tl, (joinNl (l :: rest)).data = c0 :: tl := by
        cases hrest : rest with
        | nil => exact ⟨cs0, by rw [show joinNl [l] = l from rfl, hld]⟩
        | cons l2 r2 =>
          refine ⟨cs0 ++ '\n' :: (joinNl (l2 :: r2)).data, ?_⟩
          rw [joinNl_cons_cons_data, hld, List.cons_append]
      obtain ⟨tl, htl⟩ := hjd
      have hps : (pyStrip (joinNl (l :: rest))).data
          = dropRightWs ((joinNl (l :: rest)).data) := by
        rw [pyStrip_data, htl, stripChars_eq_dropRightWs c0 tl hc0]
      have hx2 : x ∈ splitNl ⟨dropRightWs ((joinNl (l :: rest)).data)⟩ := by
        rw [show (⟨dropRightWs ((joinNl (l :: rest)).data)⟩ : String)
            = pyStrip (joinNl (l :: rest)) from String.ext (by rw [hps])]
        exact hx
      exact mem_splitNl_dropRightWs_joinNl (l :: rest) hwf x hx2

/-! ## Every parser output is well-formed -/

theorem pyStrip_no_nl (s : String) (h : '\n' ∉ s.data) : '\n' ∉ (pyStrip s).data := by
  rw [pyStrip_data]
  intro hm
  exact h (mem_stripChars hm)

theorem WFmeta_metaInsert (m : List (String × String)) (k v : String)
    (hm : WFmeta m) (hk : WFkey k) (hv : WFval v) : WFmeta (metaInsert m k v) := by
  unfold metaInsert
  by_cases hany : m.any (fun p => p.1 = k) = true
  · rw [if_pos hany]
    constructor
    · have heq : (m.map (fun p => if p.1 = k then (k, v) else p)).map (·.1)
          = m.map (·.1) := by
        rw [List.map_map]
        apply List.map_congr_left
        intro p _
        by_cases hp : p.1 = k
        · simp [hp]
        · simp [hp]
      rw [heq]
      exact hm.1
    · intro q hq
      rw [List.mem_map] at hq
      obtain ⟨p, hp, hfq⟩ := hq
      by_cases hpk : p.1 = k
      · rw [if_pos hpk] at hfq
        rw [← hfq]
        exact ⟨hk, hv⟩
      · rw [if_neg hpk] at hfq
        rw [← hfq]
        exact hm.2 p hp
  · rw [if_neg hany]
    have hnot : k ∉ m.map (·.1) := by
      intro hmem
      rw [List.mem_map] at hmem
      obtain ⟨p, hp, hpk⟩ := hmem
      apply hany
      rw [List.any_eq_true]
      exact ⟨p, hp, by simpa using hpk⟩
    constructor
    · rw [List.map_append]
      refine List.Nodup.append hm.1 (by simp) ?_
      intro a ha hb
      simp at hb
      rw [hb] at ha
      exact hnot ha
    · intro q hq
      rcases List.mem_append.1 hq with hq | hq
      · exact hm.2 q hq
      · simp at hq
        rw [hq]
        exact ⟨hk, hv⟩

/-- Invariant preserved by the `_parse_card_block` loop. -/
def CBInv (s : CBState) : Prop :=
  WFmeta s.meta ∧
  ∀ l ∈ s.body, pyStrip l = l ∧ startsFence l = false ∧ '\n' ∉ l.data

theorem cbStep_inv (s : CBState) (line : String) (hln : '\n' ∉ line.data)
    (h : CBInv s) : CBInv (cbStep s line) := by
  rw [cbStep_eq]
  by_cases hf : startsFence (pyStrip line) = true
  · rw [if_pos hf]
    exact h
  · rw [if_neg hf]
    by_cases hfc : s.fence = true
    · rw [if_pos hfc]
      refine ⟨h.1, ?_⟩
      intro l hl
      rcases List.mem_append.1 hl with hl | hl
      · exact h.2 l hl
      · simp at hl
        rw [hl]
        exact ⟨pyStrip_idem line, by simpa using hf, pyStrip_no_nl line hln⟩
    · rw [if_neg hfc]
      cases hmm : matchMeta (pyStrip line) with
      | none => exact h
      | some p =>
        obtain ⟨k, v⟩ := p
        have hprops := matchMeta_some_props (pyStrip line) k v (pyStrip_idem line)
          (pyStrip_no_nl line hln) hmm
        exact ⟨WFmeta_metaInsert s.meta _ _ h.1 hprops.1 hprops.2, h.2⟩

theorem foldl_cbStep_inv (lines : List String) :
    ∀ s : CBState, (∀ l ∈ lines, '\n' ∉ l.data) → CBInv s →
    CBInv (lines.foldl cbStep s) := by
  induction lines with
  | nil => intro s _ h; exact h
  | cons l rest ih =>
    intro s hln h
    rw [List.foldl_cons]
    exact ih (cbStep s l) (fun q hq => hln q (by simp [hq]))
      (cbStep_inv s l (hln l (by simp)) h)

theorem parseCardBlock_wf (lines : List String) (hln : ∀ l ∈ lines, '\n' ∉ l.data) :
    WFmeta (parseCardBlock lines).1 ∧ WFbody (parseCardBlock lines).2 := by
  rw [parseCardBlock_eq]
  have hinv := foldl_cbStep_inv lines ⟨[], [], false⟩ hln
    ⟨⟨by simp, by simp⟩, by simp⟩
  refine ⟨hinv.1, pyStrip_idem _, ?_⟩
  intro x hx
  rcases mem_splitNl_pyStrip_joinNl (lines.foldl cbStep ⟨[], [], false⟩).body
    (fun q hq => ⟨(hinv.2 q hq).1, (hinv.2 q hq).2.2⟩) x hx with hm | hm
  · exact ⟨(hinv.2 x hm).1, (hinv.2 x hm).2.1⟩
  · rw [hm]
    exact ⟨rfl, startsFence_empty⟩

theorem matchH2_some (line g : String) (h : matchH2 line = some g) :
    g.data = line.data.drop 3 := by
  unfold matchH2 at h
  by_cases hc : line.data.take 3 = "## ".data ∧ 3 < line.data.length
  · rw [if_pos hc] at h
    have := Option.some.inj h
    rw [← this]
  · rw [if_neg hc] at h
    exact absurd h (by simp)

theorem matchH3_some (line g : String) (h : matchH3 line = some g) :
    g.data = line.data.drop 4 := by
  unfold matchH3 at h
  by_cases hc : line.data.take 4 = "### ".data ∧ 4 < line.data.length
  · rw [if_pos hc] at h
    have := Option.some.inj h
    rw [← this]
  · rw [if_neg hc] at h
    exact absurd h (by simp)

theorem WFname_pyStrip_of_drop (line g : String) (n : Nat)
    (hg : g.data = line.data.drop n) (hln : '\n' ∉ line.data) :
    WFname (pyStrip g) := by
  refine ⟨pyStrip_idem g, pyStrip_no_nl g ?_⟩
  rw [hg]
  intro hm
  exact hln ((List.drop_sublist n line.data).subset hm)

/-- Invariant preserved by the `parse_board` loop. -/
def PInv (s : PState) : Prop :=
  (∀ p ∈ s.columns, WFname p.1 ∧ ∀ c ∈ p.2, WFcardP c) ∧
  (∀ n, s.currentCol = some n → WFname n) ∧
  (∀ c ∈ s.currentCards, WFcardP c) ∧
  (∀ t, s.currentCard = some t → WFname t) ∧
  (∀ l ∈ s.cardLines, '\n' ∉ l.data)

theorem flushCard_inv (s : PState) (h : PInv s) : PInv (flushCard s) := by
  unfold flushCard
  cases hcc : s.currentCard with
  | none => exact h
  | some t =>
    refine ⟨h.1, h.2.1, ?_, by simp, by simp⟩
    intro c hc
    rcases List.mem_append.1 hc with hc | hc
    · exact h.2.2.1 c hc
    · simp at hc
      rw [hc]
      have hpcb := parseCardBlock_wf s.cardLines h.2.2.2.2
      exact ⟨h.2.2.2.1 t hcc, hpcb.1, hpcb.2⟩

theorem flushColumn_inv (s : PState) (h : PInv s) : PInv (flushColumn s) := by
  rw [flushColumn_eq]
  have hf := flushCard_inv s h
  cases hcc : (flushCard s).currentCol with
  | none => exact hf
  | some n =>
    refine ⟨?_, by simp, by simp, hf.2.2.2.1, hf.2.2.2.2⟩
    intro p hp
    rcases List.mem_append.1 hp with hp | hp
    · exact hf.1 p hp
    · simp at hp
      rw [hp]
      exact ⟨hf.2.1 n hcc, hf.2.2.1⟩

theorem pStep_of_h2 (s : PState) (line g : String) (h : matchH2 line = some g) :
    pStep s line = { flushColumn s with currentCol := some (pyStrip g) } := by
  rw [pStep_eq, h]

theorem pStep_of_h3 (s : PState) (line g : String) (h2 : matchH2 line = none)
    (h3 : matchH3 line = some g) :
    pStep s line = { flushCard s with currentCard := some (pyStrip g) } := by
  rw [pStep_eq, h2, h3]

theorem pStep_inv (s : PState) (line : String) (hln : '\n' ∉ line.data)
    (h : PInv s) : PInv (pStep s line) := by
  cases h2 : matchH2 line with
  | some g =>
    rw [pStep_of_h2 s line g h2]
    have hfc := flushColumn_inv s h
    refine ⟨hfc.1, ?_, hfc.2.2.1, hfc.2.2.2.1, hfc.2.2.2.2⟩
    intro n hn
    have hgn := Option.some.inj hn
    rw [← hgn]
    exact WFname_pyStrip_of_drop line g 3 (matchH2_some line g h2) hln
  | none =>
    cases h3 : matchH3 line with
    | some g =>
      rw [pStep_of_h3 s line g h2 h3]
      have hfc := flushCard_inv s h
      refine ⟨hfc.1, hfc.2.1, hfc.2.2.1, ?_, hfc.2.2.2.2⟩
      intro t ht
      have hgt := Option.some.inj ht
      rw [← hgt]
      exact WFname_pyStrip_of_drop line g 4 (matchH3_some line g h3) hln
    | none =>
      cases hcc : s.currentCard with
      | none =>
        rw [pStep_content_none s line hcc ⟨h2, h3⟩]
        exact h
      | some t =>
        rw [pStep_content_some s line t hcc ⟨h2, h3⟩]
        refine ⟨h.1, h.2.1, h.2.2.1, h.2.2.2.1, ?_⟩
        intro l hl
        rcases List.mem_append.1 hl with hl | hl
        · exact h.2.2.2.2 l hl
        · simp at hl
          rw [hl]
          exact hln

theorem foldl_pStep_inv (lines : List String) :
    ∀ s : PState, (∀ l ∈ lines, '\n' ∉ l.data) → PInv s →
    PInv (lines.foldl pStep s) := by
  induction lines with
  | nil => intro s _ h; exact h
  | cons l rest ih =>
    intro s hln h
    rw [List.foldl_cons]
    exact ih (pStep s l) (fun q hq => hln q (by simp [hq]))
      (pStep_inv s l (hln l (by simp)) h)

/-- Every board returned by `parse_board` is well-formed: heading names and
card titles are strip-stable and newline-free, metadata keys are distinct,
non-empty, lower- and strip-stable word-character runs, values are non-empty
and strip-stable, bodies are strip-stable with trim-stable fence-free lines. -/
theorem parser_wf (text : String) : WFboardP (parse_board text) := by
  unfold parse_board parseLines
  have hinv := foldl_pStep_inv (splitNl text) initPState
    (mem_splitNl_no_nl text) ⟨by simp [initPState], ?_, by simp [initPState], ?_, by simp [initPState]⟩
  · exact (flushColumn_inv _ hinv).1
  · intro n hn
    simp [initPState] at hn
  · intro t ht
    simp [initPState] at ht

/-! ## Claim C1: parse/write round trip -/

def c1text : String := "##  \n"

/-- Claim C1, counterexample: the heading line of `c1text` matches `^## (.+)$`
with a whitespace group, so the parser produces a column named `""`; the
serializer then emits a heading with no text after `## `, which the parser no
longer recognises, so the round trip loses the column. -/
theorem C1_empty_name_counterexample :
    parse_board (write_board (parse_board c1text)) ≠ parse_board c1text := by decide

/-- Claim C1 (amended): for every document produced by the parser whose
column names and card titles are all non-empty, serializing and re-parsing
yields the same document: same column names in the same order, same cards in
the same order, same meta mapping and body text per card. -/
theorem C1_parse_write_roundtrip (t : String)
    (h : ∀ p ∈ (parse_board t).columns, p.1 ≠ "" ∧ ∀ c ∈ p.2, c.title ≠ "") :
    parse_board (write_board (parse_board t)) = parse_board t := by
  apply parse_write_board
  intro p hp
  have hwf := parser_wf t p hp
  exact ⟨⟨hwf.1, (h p hp).1⟩, fun c hc => ⟨hwf.2 c hc, (h p hp).2 c hc⟩⟩

def sampleBoardText : String :=
  "## Todo\n\n### Task one\n\n  - due: 2026-01-01\n\n    ```md\n    hello\n    ```\n\n## Done\n"

/-- Claim C1, witness: the round trip at a concrete two-column board with a
card carrying metadata and a fenced body. -/
theorem C1_roundtrip_witness :
    parse_board (write_board (parse_board sampleBoardText)) = parse_board sampleBoardText :=
  C1_parse_write_roundtrip sampleBoardText (by decide)

/-! ## Claim C2: empty cards serialize minimally -/

/-- Claim C2: a card with no metadata and empty body serializes to exactly
its heading line plus one blank line (no fence, no metadata block), and a
board holding it re-parses to the same board, the card keeping empty meta
and empty body. -/
theorem C2_empty_card_minimal (c : Card) (n : String) (hm : c.meta = []) (hb : c.body = "")
    (ht : pyStrip c.title = c.title) (htn : '\n' ∉ c.title.data) (hte : c.title ≠ "")
    (hn : pyStrip n = n) (hnn : '\n' ∉ n.data) (hne : n ≠ "") :
    writeCard c = ["### " ++ c.title, ""] ∧
    parse_board (write_board ⟨[(n, [c])]⟩) = ⟨[(n, [c])]⟩ := by
  constructor
  · simp [writeCard, cardTail, hm, hb]
  · apply parse_write_board
    intro p hp
    simp only [List.mem_singleton] at hp
    rw [hp]
    refine ⟨⟨⟨hn, hnn⟩, hne⟩, ?_⟩
    intro cc hcc
    simp only [List.mem_singleton] at hcc
    rw [hcc]
    refine ⟨⟨⟨ht, htn⟩, ?_, ?_⟩, hte⟩
    · rw [hm]
      exact ⟨by simp, by simp⟩
    · rw [hb]
      refine ⟨rfl, ?_⟩
      intro l hl
      rw [show splitNl "" = [""] from rfl] at hl
      simp only [List.mem_singleton] at hl
      rw [hl]
      exact ⟨rfl, rfl⟩

/-- Claim C2, witness: the concrete card `T` in column `Col`. -/
theorem C2_empty_card_witness :
    writeCard ⟨"T", [], ""⟩ = ["### " ++ ("T"), ""] ∧
    parse_board (write_board ⟨[(("Col"), [⟨"T", [], ""⟩])]⟩)
      = ⟨[(("Col"), [⟨"T", [], ""⟩])]⟩ :=
  C2_empty_card_minimal ⟨"T", [], ""⟩ ("Col") rfl rfl (by decide) (by decide)
    (by decide) (by decide) (by decide) (by decide)

/-! ## Claim C10: parsed bodies are whitespace-normalized -/

/-- Claim C10: every card produced by the parser has a whitespace-normalized
body: the body equals its own trimmed form (so leading/trailing blank lines
are dropped), every line of the body equals its own trimmed form (interior
indentation of the on-disk fenced block is not preserved), and no body line
starts with a code fence. -/
theorem C10_body_normalized (text : String) (p : String × List Card)
    (hp : p ∈ (parse_board text).columns) (c : Card) (hc : c ∈ p.2) :
    pyStrip c.body = c.body ∧
    ∀ l ∈ splitNl c.body, pyStrip l = l ∧ startsFence l = false :=
  ((parser_wf text p hp).2 c hc).2.2

def c10text : String := "## A\n### x\n    ```md\n      indented line\n    ```\n"

/-- Claim C10, witness: a fenced body whose on-disk lines are indented
parses to a card whose body line is trimmed. -/
theorem C10_body_witness :
    pyStrip (Card.mk ("x") [] ("indented line")).body
        = (Card.mk ("x") [] ("indented line")).body ∧
    ∀ l ∈ splitNl (Card.mk ("x") [] ("indented line")).body,
      pyStrip l = l ∧ startsFence l = false :=
  C10_body_normalized c10text (("A"), [⟨("x"), [], ("indented line")⟩]) (by decide)
    ⟨("x"), [], ("indented line")⟩ (by decide)

/-! ## Claim C5: metadata lines within a card block -/

/-- The meta regex matches any line of the claimed shape `-`, one or more
spaces, a key token, `:`, a space, a value, capturing exactly the key and the
value. -/
theorem matchMeta_claim_shape (k v : String) (nsp : Nat) (hnsp : 0 < nsp)
    (hk : ∃ c cs, k.data = c :: cs ∧ isWordChar c = true)
    (hka : ∀ c ∈ k.data, wordOrWS c = true)
    (hv : ∃ c cs, v.data = c :: cs ∧ isWS c = false)
    (hvl : ∀ c, v.data.getLast? = some c → isWS c = false) :
    matchMetaChars ('-' :: (List.replicate nsp ' ' ++ (k.data ++ ':' :: ' ' :: v.data)))
      = some (k, v) := by
  obtain ⟨kc, kcs, hkd, hkw⟩ := hk
  obtain ⟨vc, vcs, hvd, hvw⟩ := hv
  have hsp : isWS ' ' = true := by decide
  obtain ⟨m, rfl⟩ : ∃ m, nsp = m + 1 := ⟨nsp - 1, by omega⟩
  rw [matchMetaChars_dash, List.replicate_succ, List.cons_append]
  rw [List.takeWhile_cons, if_pos hsp]
  rw [if_neg (by simp)]
  rw [List.dropWhile_cons, if_pos hsp]
  rw [dropWhile_append_all isWS (List.replicate m ' ') _
    (fun c hc => by rw [List.eq_of_mem_replicate hc]; exact hsp)]
  have hdk : (k.data ++ ':' :: ' ' :: v.data).dropWhile isWS
      = k.data ++ ':' :: ' ' :: v.data := by
    rw [hkd, List.cons_append]
    exact dropWhile_cons_false isWS kc _ (isWS_of_wordChar kc hkw)
  rw [hdk, hkd, List.cons_append, matchMetaTail_cons, if_pos hkw, ← List.cons_append, ← hkd]
  have hdrop : (k.data ++ ':' :: ' ' :: v.data).dropWhile wordOrWS = ':' :: ' ' :: v.data := by
    rw [dropWhile_append_all wordOrWS _ _ hka]
    exact dropWhile_cons_false wordOrWS ':' _ (by decide)
  have htake : (k.data ++ ':' :: ' ' :: v.data).takeWhile wordOrWS = k.data := by
    rw [takeWhile_append_all wordOrWS _ _ hka,
      takeWhile_cons_false wordOrWS ':' _ (by decide), List.append_nil]
  rw [hdrop, htake, matchMetaColon_colon]
  rw [if_neg (by simp)]
  have hall : (' ' :: v.data).all isWS = false := by
    have hne : v.data ≠ [] := by rw [hvd]; simp
    rw [List.all_eq_false]
    exact ⟨v.data.getLast hne, List.mem_cons_of_mem ' ' (List.getLast_mem hne),
      by simp [hvl _ (List.getLast?_eq_getLast v.data hne)]⟩
  rw [if_neg (by simp [hall])]
  rw [List.dropWhile_cons, if_pos hsp, hvd,
    dropWhile_cons_false isWS vc vcs hvw, ← hvd, mk_data_eta, mk_data_eta]

/-- Python dict assignment makes the inserted key map to the inserted value:
later occurrences of a key overwrite earlier ones. -/
theorem metaGet_metaInsert (m : List (String × String)) (k v : String) :
    metaGet (metaInsert m k v) k = some v := by
  unfold metaInsert
  by_cases hany : m.any (fun p => p.1 = k) = true
  · rw [if_pos hany]
    induction m with
    | nil => simp at hany
    | cons p rest ih =>
      rw [List.map_cons]
      by_cases hpk : p.1 = k
      · rw [if_pos hpk]
        unfold metaGet
        rw [List.find?_cons_of_pos _ (by simp)]
        rfl
      · rw [if_neg hpk]
        unfold metaGet
        rw [List.find?_cons_of_neg _ (by simp [hpk])]
        have har : rest.any (fun q => q.1 = k) = true := by
          rcases List.any_eq_true.1 hany with ⟨q, hq, hqk⟩
          rcases List.mem_cons.1 hq with hq | hq
          · rw [hq] at hqk
            exact absurd (by simpa using hqk) hpk
          · exact List.any_eq_true.2 ⟨q, hq, hqk⟩
        exact ih har
  · rw [if_neg hany]
    induction m with
    | nil =>
      unfold metaGet
      rw [List.nil_append, List.find?_cons_of_pos _ (by simp)]
      rfl
    | cons p rest ih =>
      have h1 : ¬ p.1 = k := fun hpk => hany (by simp [List.any_cons, hpk])
      have h2 : ¬ rest.any (fun q => q.1 = k) = true :=
        fun hr => hany (by simp [List.any_cons, hr])
      unfold metaGet
      rw [List.cons_append, List.find?_cons_of_neg _ (by simp [h1])]
      exact ih h2

/-- Claim C5: inside a card block, a line whose trimmed content has the
claimed metadata shape (`-`, one or more spaces, a key token of word
characters and inner spaces, `:`, a space, a value; the leading `-` is
effectively mandatory since trimmed content cannot begin with whitespace)
is, outside a fenced region, recorded in the meta mapping with the key
lower-cased and trimmed and the value trimmed; the inserted key then maps to
the inserted value, so later occurrences overwrite earlier ones; and inside
a fenced region the same line is appended, trimmed, to the body instead. -/
theorem C5_meta_line_recorded (st : CBState) (line k v : String) (nsp : Nat)
    (hnsp : 0 < nsp)
    (hshape : (pyStrip line).data
      = '-' :: (List.replicate nsp ' ' ++ (k.data ++ ':' :: ' ' :: v.data)))
    (hk : ∃ c cs, k.data = c :: cs ∧ isWordChar c = true)
    (hka : ∀ c ∈ k.data, wordOrWS c = true)
    (hv : ∃ c cs, v.data = c :: cs ∧ isWS c = false)
    (hvl : ∀ c, v.data.getLast? = some c → isWS c = false) :
    (st.fence = false →
      cbStep st line
        = { st with meta := metaInsert st.meta (pyLower (pyStrip k)) (pyStrip v) }) ∧
    (st.fence = true → cbStep st line = { st with body := st.body ++ [pyStrip line] }) ∧
    metaGet (metaInsert st.meta (pyLower (pyStrip k)) (pyStrip v)) (pyLower (pyStrip k))
      = some (pyStrip v) := by
  have hps : pyStrip line
      = ⟨'-' :: (List.replicate nsp ' ' ++ (k.data ++ ':' :: ' ' :: v.data))⟩ :=
    String.ext hshape
  have hsf : startsFence (pyStrip line) = false := by
    rw [hps]
    exact startsFence_false_of_head '-' _ (by decide)
  have hmm : matchMeta (pyStrip line) = some (k, v) := by
    unfold matchMeta
    rw [hshape]
    exact matchMeta_claim_shape k v nsp hnsp hk hka hv hvl
  refine ⟨?_, ?_, metaGet_metaInsert st.meta _ _⟩
  · intro hfc
    rw [cbStep_eq, if_neg (by simp [hsf]), if_neg (by simp [hfc]), hmm]
  · intro hfc
    rw [cbStep_eq, if_neg (by simp [hsf]), if_pos hfc]

/-- Claim C5, witness: the line `-  Due: 2026-01-01  ` (two spaces after the
dash, trailing whitespace) outside a fence records `due ↦ 2026-01-01`. -/
theorem C5_meta_line_witness :
    cbStep ⟨[("a", "b")], ["x"], false⟩ ("-  Due: 2026-01-01  ")
      = ⟨metaInsert [("a", "b")] (pyLower (pyStrip ("Due"))) (pyStrip ("2026-01-01")),
         ["x"], false⟩ ∧
    metaGet (metaInsert [("a", "b")] (pyLower (pyStrip ("Due"))) (pyStrip ("2026-01-01")))
        (pyLower (pyStrip ("Due"))) = some (pyStrip ("2026-01-01")) := by
  have h := C5_meta_line_recorded ⟨[("a", "b")], ["x"], false⟩ ("-  Due: 2026-01-01  ")
    ("Due") ("2026-01-01") 2 (by decide) (by decide)
    ⟨'D', ['u', 'e'], by decide, by decide⟩ (by decide)
    ⟨'2', "026-01-01".data, by decide, by decide⟩ (by decide)
  exact ⟨h.1 rfl, h.2.2⟩

/-! ## Claim C6: cards before the first column heading -/

/-- Prepend a batch of cards to the first column of a column list. -/
def prependFirst (k : List Card) : List (String × List Card) → List (String × List Card)
  | [] => []
  | (n, cs) :: rest => (n, k ++ cs) :: rest

theorem prependFirst_append (k : List Card) (cs ys : List (String × List Card))
    (h : cs ≠ []) : prependFirst k cs ++ ys = prependFirst k (cs ++ ys) := by
  cases cs with
  | nil => exact absurd rfl h
  | cons p rest =>
    cases p
    simp [prependFirst]

/-- State invariant while no column heading has been seen. -/
def PreCol (s : PState) : Prop :=
  s.columns = [] ∧ s.currentCol = none ∧ (s.currentCard = none → s.cardLines = [])

theorem flushCard_cardLines_preCol (s : PState)
    (h : s.currentCard = none → s.cardLines = []) : (flushCard s).cardLines = [] := by
  cases hcc : s.currentCard with
  | none =>
    rw [flushCard_none s hcc]
    exact h hcc
  | some t => rw [flushCard_some s t hcc]

theorem flushColumn_of_col_none (s : PState) (h : s.currentCol = none) :
    flushColumn s = flushCard s := by
  rw [flushColumn_eq, flushCard_currentCol, h]

theorem pStep_preCol (s : PState) (line : String) (h2 : matchH2 line = none)
    (h : PreCol s) : PreCol (pStep s line) := by
  cases h3 : matchH3 line with
  | some g =>
    rw [pStep_of_h3 s line g h2 h3]
    refine ⟨?_, ?_, ?_⟩
    · rw [show ({ flushCard s with currentCard := some (pyStrip g) } : PState).columns
          = (flushCard s).columns from rfl, flushCard_columns]
      exact h.1
    · rw [show ({ flushCard s with currentCard := some (pyStrip g) } : PState).currentCol
          = (flushCard s).currentCol from rfl, flushCard_currentCol]
      exact h.2.1
    · intro hc
      simp at hc
  | none =>
    cases hcc : s.currentCard with
    | none =>
      rw [pStep_content_none s line hcc ⟨h2, h3⟩]
      exact h
    | some t =>
      rw [pStep_content_some s line t hcc ⟨h2, h3⟩]
      refine ⟨h.1, h.2.1, ?_⟩
      intro hc
      rw [show ({ s with cardLines := s.cardLines ++ [line] } : PState).currentCard
          = s.currentCard from rfl, hcc] at hc
      exact absurd hc (by simp)

theorem foldl_pStep_preCol (ls : List String) :
    ∀ s : PState, (∀ l ∈ ls, matchH2 l = none) → PreCol s →
    PreCol (ls.foldl pStep s) := by
  induction ls with
  | nil => intro s _ h; exact h
  | cons l rest ih =>
    intro s hls h
    rw [List.foldl_cons]
    exact ih (pStep s l) (fun q hq => hls q (by simp [hq]))
      (pStep_preCol s l (hls l (by simp)) h)

/-- Bisimulation between a parse run carrying orphan cards `k` in its
accumulator and the run without them. -/
def OrphanRel (k : List Card) (s s' : PState) : Prop :=
  s.currentCol = s'.currentCol ∧ s.currentCard = s'.currentCard ∧
  s.cardLines = s'.cardLines ∧
  ((s'.columns = [] ∧ s.columns = [] ∧ s.currentCards = k ++ s'.currentCards) ∨
   (s'.columns ≠ [] ∧ s.columns = prependFirst k s'.columns ∧
    s.currentCards = s'.currentCards))

theorem flushCard_orphanRel (k : List Card) (s s' : PState) (h : OrphanRel k s s') :
    OrphanRel k (flushCard s) (flushCard s') := by
  obtain ⟨hcol, hcc, hcl, hrest⟩ := h
  cases hc : s'.currentCard with
  | none =>
    rw [flushCard_none s' hc, flushCard_none s (hcc.trans hc)]
    exact ⟨hcol, hcc, hcl, hrest⟩
  | some t =>
    rw [flushCard_some s' t hc, flushCard_some s t (hcc.trans hc), hcl]
    refine ⟨hcol, rfl, rfl, ?_⟩
    rcases hrest with ⟨h1, h2, h3⟩ | ⟨h1, h2, h3⟩
    · left
      refine ⟨h1, h2, ?_⟩
      show s.currentCards ++ _ = k ++ (s'.currentCards ++ _)
      rw [h3, List.append_assoc]
    · right
      refine ⟨h1, h2, ?_⟩
      show s.currentCards ++ _ = s'.currentCards ++ _
      rw [h3]

theorem flushColumn_orphanRel (k : List Card) (s s' : PState) (h : OrphanRel k s s') :
    OrphanRel k (flushColumn s) (flushColumn s') := by
  have hf := flushCard_orphanRel k s s' h
  obtain ⟨hcol, hcc, hcl, hrest⟩ := hf
  rw [flushColumn_eq s, flushColumn_eq s']
  cases hc : (flushCard s').currentCol with
  | none =>
    rw [hcol.trans hc]
    exact ⟨hcol, hcc, hcl, hrest⟩
  | some n =>
    rw [hcol.trans hc]
    refine ⟨rfl, hcc, hcl, Or.inr ?_⟩
    rcases hrest with ⟨h1, h2, h3⟩ | ⟨h1, h2, h3⟩
    · refine ⟨by simp, ?_, rfl⟩
      show (flushCard s).columns ++ _ = prependFirst k ((flushCard s').columns ++ _)
      rw [h1, h2, h3]
      simp [prependFirst]
    · refine ⟨by simp, ?_, rfl⟩
      show (flushCard s).columns ++ _ = prependFirst k ((flushCard s').columns ++ _)
      rw [h2, h3, prependFirst_append k _ _ h1]

theorem pStep_orphanRel (k : List Card) (s s' : PState) (line : String)
    (h : OrphanRel k s s') : OrphanRel k (pStep s line) (pStep s' line) := by
  cases h2 : matchH2 line with
  | some g =>
    rw [pStep_of_h2 s line g h2, pStep_of_h2 s' line g h2]
    obtain ⟨hcol, hcc, hcl, hrest⟩ := flushColumn_orphanRel k s s' h
    exact ⟨rfl, hcc, hcl, hrest⟩
  | none =>
    cases h3 : matchH3 line with
    | some g =>
      rw [pStep_of_h3 s line g h2 h3, pStep_of_h3 s' line g h2 h3]
      obtain ⟨hcol, hcc, hcl, hrest⟩ := flushCard_orphanRel k s s' h
      exact ⟨hcol, rfl, hcl, hrest⟩
    | none =>
      obtain ⟨hcol, hcc, hcl, hrest⟩ := h
      cases hcs : s'.currentCard with
      | none =>
        rw [pStep_content_none s' line hcs ⟨h2, h3⟩,
          pStep_content_none s line (hcc.trans hcs) ⟨h2, h3⟩]
        exact ⟨hcol, hcc, hcl, hrest⟩
      | some t =>
        rw [pStep_content_some s' line t hcs ⟨h2, h3⟩,
          pStep_content_some s line t (hcc.trans hcs) ⟨h2, h3⟩]
        refine ⟨hcol, hcc, ?_, hrest⟩
        show s.cardLines ++ _ = s'.cardLines ++ _
        rw [hcl]

theorem foldl_pStep_orphanRel (ls : List String) :
    ∀ (k : List Card) (s s' : PState), OrphanRel k s s' →
    OrphanRel k (ls.foldl pStep s) (ls.foldl pStep s') := by
  induction ls with
  | nil => intro k s s' h; exact h
  | cons l rest ih =>
    intro k s s' h
    rw [List.foldl_cons, List.foldl_cons]
    exact ih k (pStep s l) (pStep s' l) (pStep_orphanRel k s s' l h)

/-- Claim C6 (amended): card headings before the first column heading are
*not* ignored. The cards accumulated before the first `## ` heading are
prepended to the first column that opens; when no column heading ever
appears, the parsed document has no columns at all (only then are the
pre-column cards dropped). -/
theorem C6_pre_column_cards (pre : List String) (hpre : ∀ l ∈ pre, matchH2 l = none)
    (n : String) (hn : n ≠ "") (rest : List String) :
    parseLines pre = ⟨[]⟩ ∧
    parseLines (pre ++ ("## " ++ n) :: rest)
      = ⟨prependFirst ((flushCard (pre.foldl pStep initPState)).currentCards)
          (parseLines (("## " ++ n) :: rest)).columns⟩ := by
  have hpc : PreCol (pre.foldl pStep initPState) :=
    foldl_pStep_preCol pre initPState hpre ⟨rfl, rfl, fun _ => rfl⟩
  constructor
  · unfold parseLines
    congr 1
    rw [flushColumn_of_col_none _ hpc.2.1, flushCard_columns]
    exact hpc.1
  · have hfi : flushColumn initPState = initPState := by
      rw [flushColumn_of_col_none initPState rfl, flushCard_none initPState rfl]
    have hrel0 : OrphanRel ((flushCard (pre.foldl pStep initPState)).currentCards)
        (pStep (pre.foldl pStep initPState) ("## " ++ n)) (pStep initPState ("## " ++ n)) := by
      rw [pStep_h2 _ n hn, pStep_h2 initPState n hn,
        flushColumn_of_col_none _ hpc.2.1, hfi]
      refine ⟨rfl, ?_, ?_, Or.inl ⟨rfl, ?_, ?_⟩⟩
      · show (flushCard (pre.foldl pStep initPState)).currentCard = _
        rw [flushCard_currentCard]
        rfl
      · show (flushCard (pre.foldl pStep initPState)).cardLines = _
        rw [flushCard_cardLines_preCol _ hpc.2.2]
        rfl
      · show (flushCard (pre.foldl pStep initPState)).columns = []
        rw [flushCard_columns]
        exact hpc.1
      · show (flushCard (pre.foldl pStep initPState)).currentCards = _ ++ _
        simp [initPState]
    have hrel := foldl_pStep_orphanRel rest _ _ _ hrel0
    unfold parseLines
    rw [List.foldl_append, List.foldl_cons, List.foldl_cons]
    congr 1
    obtain ⟨_, _, _, hrest⟩ := flushColumn_orphanRel _ _ _ hrel
    rcases hrest with ⟨h1, h2, h3⟩ | ⟨h1, h2, h3⟩
    · rw [h1, h2]
      rfl
    · exact h2

/-- Claim C6, counterexample: the card heading `### orphan` before the first
column is not ignored — the orphan card ends up prepended to column `A`. -/
theorem C6_orphan_counterexample :
    parse_board ("### orphan\n## A\n### real\n")
      = ⟨[(("A"), [⟨("orphan"), [], ""⟩, ⟨("real"), [], ""⟩])]⟩ := by decide

/-- Claim C6, witness: the amended statement at a one-line pre-column region. -/
theorem C6_orphan_witness :
    parseLines ["### orphan"] = ⟨[]⟩ ∧
    parseLines (["### orphan"] ++ ("## " ++ ("A")) :: ["### real"])
      = ⟨prependFirst ((flushCard (List.foldl pStep initPState ["### orphan"])).currentCards)
          (parseLines (("## " ++ ("A")) :: ["### real"])).columns⟩ :=
  C6_pre_column_cards ["### orphan"] (by decide) ("A") (by decide) ["### real"]

/-! ## Claim C9: column names and case-insensitive lookup -/

/-- Claim C9, counterexample: the parser happily produces a document with
two columns whose names coincide under the case-insensitive comparison used
for lookup — no uniqueness invariant is enforced anywhere. -/
theorem C9_duplicate_columns_counterexample :
    parse_board ("## A\n\n## a\n") = ⟨[(("A"), []), (("a"), [])]⟩ ∧
    pyLower ("A") = pyLower ("a") :=
  ⟨by decide, by decide⟩

/-- Claim C9 (amended): column lookup is case-insensitive (looking up a name
and its lower-cased form give the same result, namely the first
case-insensitive match in document order) and the parser preserves the
original case of column names; but uniqueness of column names is not
enforced: duplicates survive parsing, so only the lookup clause holds. -/
theorem C9_case_insensitive_lookup (b : Board) (n : String) :
    b.get_column n = b.get_column (pyLower n) ∧
    (∀ p ∈ b.columns, pyLower p.1 = pyLower n → b.get_column n ≠ none) ∧
    parse_board ("## MiXeD\n") = ⟨[(("MiXeD"), [])]⟩ := by
  refine ⟨?_, ?_, by decide⟩
  · unfold Board.get_column
    simp [pyLower_idem]
  · intro p hp hpn hnone
    unfold Board.get_column at hnone
    cases hfind : b.columns.find? (fun q => pyLower q.1 = pyLower n) with
    | some q =>
      rw [hfind] at hnone
      simp at hnone
    | none =>
      have hcon := List.find?_eq_none.1 hfind p hp
      simp [hpn] at hcon

/-- Claim C9, witness: lookup of `done` against a column named `Done`. -/
theorem C9_lookup_witness :
    Board.get_column ⟨[(("Done"), [])]⟩ ("done")
      = Board.get_column ⟨[(("Done"), [])]⟩ (pyLower ("done")) ∧
    Board.get_column ⟨[(("Done"), [])]⟩ ("done") ≠ none :=
  ⟨(C9_case_insensitive_lookup ⟨[(("Done"), [])]⟩ ("done")).1,
   (C9_case_insensitive_lookup ⟨[(("Done"), [])]⟩ ("done")).2.1 (("Done"), [])
     (by decide) (by decide)⟩

/-! ## REST and terminal operations (`server.py` routes, `kanban.py` `move_card`) -/

/-- The failures a REST endpoint signals: `HTTPException(404, ...)` for an
unknown column name, `HTTPException(400, ...)` for an out-of-range index. -/
inductive ApiErr where
  | notFound (column : String)
  | badRequest
deriving Repr, DecidableEq

/-- Position of the first case-insensitive match of a column name — the list
slot whose cards list `Board.get_column` returns. -/
def colIdxAux (name : String) : List (String × List Card) → Option Nat
  | [] => none
  | p :: rest =>
    if pyLower p.1 = pyLower name then some 0
    else (colIdxAux name rest).map (· + 1)

def colIdx (b : Board) (name : String) : Option Nat := colIdxAux name b.columns

def dfltCol : String × List Card := ("", [])

def dfltCard : Card := ⟨"", [], ""⟩

/-- The slot `list.insert` uses: negative indices count from the end and are
clamped at 0, indices past the end append. -/
def pyInsertPos (n : Nat) (k : Int) : Nat :=
  if k < 0 then ((n : Int) + k).toNat else min k.toNat n

/-- Python `list.insert(k, x)`. -/
def pyInsert (xs : List Card) (k : Int) (x : Card) : List Card :=
  xs.take (pyInsertPos xs.length k) ++ x :: xs.drop (pyInsertPos xs.length k)

def totalCards (b : Board) : Nat := (b.columns.map (fun p => p.2.length)).sum

def allCards (b : Board) : List Card := (b.columns.map (·.2)).flatten

/-- `src.pop(k)` on column `i`: the column list after the card is removed
(the mutation happens on the list object `get_column` returned, i.e. slot
`i` of the columns list). -/
def popCard (b : Board) (i : Nat) (k : Nat) : List (String × List Card) :=
  b.columns.set i ((b.columns.getD i dfltCol).1, (b.columns.getD i dfltCol).2.eraseIdx k)

/-- `dst.insert(min(to_index, len(dst)), card)` on column `j` of `cols`:
`len(dst)` is read after the pop, which the caller reflects by passing the
popped column list. -/
def insertCard (cols : List (String × List Card)) (j : Nat) (k : Int) (c : Card) :
    List (String × List Card) :=
  cols.set j ((cols.getD j dfltCol).1,
    pyInsert (cols.getD j dfltCol).2 (min k (((cols.getD j dfltCol).2.length : Int))) c)

/-- The card a valid (column, index) reference denotes. -/
def cardAt (b : Board) (colName : String) (idx : Int) : Option Card :=
  match colIdx b colName with
  | none => none
  | some i =>
    if idx < 0 ∨ ((b.columns.getD i dfltCol).2.length : Int) ≤ idx then none
    else some ((b.columns.getD i dfltCol).2.getD idx.toNat dfltCard)

/-- `PUT /api/cards/move` (`move_card` in `server.py`): resolve both columns
(404 on failure), validate the source index (400 on failure), pop and
insert. -/
def board_move (b : Board) (fromCol : String) (fromIdx : Int) (toCol : String)
    (toIdx : Int) : Except ApiErr Board :=
  match colIdx b fromCol with
  | none => .error (.notFound fromCol)
  | some i =>
    match colIdx b toCol with
    | none => .error (.notFound toCol)
    | some j =>
      if fromIdx < 0 ∨ ((b.columns.getD i dfltCol).2.length : Int) ≤ fromIdx then
        .error .badRequest
      else
        .ok ⟨insertCard (popCard b i fromIdx.toNat) j toIdx
              ((b.columns.getD i dfltCol).2.getD fromIdx.toNat dfltCard)⟩

/-- `POST /api/cards` (`add_card` in `server.py`): resolve the column (404 on
failure) and append the new card. -/
def board_add (b : Board) (colName t : String) (m : List (String × String))
    (body : String) : Except ApiErr Board :=
  match colIdx b colName with
  | none => .error (.notFound colName)
  | some i =>
    .ok ⟨b.columns.set i ((b.columns.getD i dfltCol).1,
          (b.columns.getD i dfltCol).2 ++ [⟨t, m, body⟩])⟩

/-- `PUT /api/cards/{column}/{index}` (`edit_card` in `server.py`): resolve
the column (404), validate the index (400), then overwrite the card's title,
meta and body verbatim with the payload. -/
def board_edit (b : Board) (colName : String) (idx : Int) (t : String)
    (m : List (String × String)) (body : String) : Except ApiErr Board :=
  match colIdx b colName with
  | none => .error (.notFound colName)
  | some i =>
    if idx < 0 ∨ ((b.columns.getD i dfltCol).2.length : Int) ≤ idx then .error .badRequest
    else .ok ⟨b.columns.set i ((b.columns.getD i dfltCol).1,
      (b.columns.getD i dfltCol).2.set idx.toNat ⟨t, m, body⟩)⟩

/-- `DELETE /api/cards/{column}/{index}` (`delete_card` in `server.py`). -/
def board_delete (b : Board) (colName : String) (idx : Int) : Except ApiErr Board :=
  match colIdx b colName with
  | none => .error (.notFound colName)
  | some i =>
    if idx < 0 ∨ ((b.columns.getD i dfltCol).2.length : Int) ≤ idx then .error .badRequest
    else .ok ⟨b.columns.set i ((b.columns.getD i dfltCol).1,
      (b.columns.getD i dfltCol).2.eraseIdx idx.toNat)⟩

/-- Terminal `move_card` (`kanban.py`): pop the picked card from its column,
then resolve the target (against the already-popped board, mirroring the
mutation order) and append. The interactive picker guarantees both columns
resolve, so the fall-through branches are unreachable under the hypotheses
used below. -/
def terminal_move (b : Board) (fromCol : String) (idx : Nat) (toCol : String) : Board :=
  match colIdx b fromCol with
  | none => b
  | some i =>
    match colIdxAux toCol (popCard b i idx) with
    | none => ⟨popCard b i idx⟩
    | some j =>
      ⟨(popCard b i idx).set j (((popCard b i idx).getD j dfltCol).1,
        ((popCard b i idx).getD j dfltCol).2
          ++ [(b.columns.getD i dfltCol).2.getD idx dfltCard])⟩

/-- Terminal `edit_card`, body branch (`kanban.py`): set the new body; when
it is non-empty and no exact-case `defaultExpanded` key exists, record
`defaultExpanded: false`. -/
def edit_set_body (c : Card) (newBody : String) : Card :=
  if newBody ≠ "" ∧ metaHasKey c.meta ("defaultExpanded") = false then
    ⟨c.title, metaInsert c.meta ("defaultExpanded") ("false"), newBody⟩
  else ⟨c.title, c.meta, newBody⟩

/-- One REST mutation request against the board file: parse, run the
operation, write back on success; on failure nothing is written and the file
is unchanged. The handler re-parses the file, so all references resolve
against a freshly parsed document per request. -/
def runEndpoint (file : String) (op : Board → Except ApiErr Board) :
    Except ApiErr String × String :=
  match op (parse_board file) with
  | .ok b2 => (.ok (write_board b2), write_board b2)
  | .error e => (.error e, file)

/-! ## List bookkeeping lemmas for the operations -/

theorem colIdxAux_lt (name : String) :
    ∀ (l : List (String × List Card)) (i : Nat), colIdxAux name l = some i →
    i < l.length := by
  intro l
  induction l with
  | nil => intro i h; simp [colIdxAux] at h
  | cons p rest ih =>
    intro i h
    unfold colIdxAux at h
    by_cases hp : pyLower p.1 = pyLower name
    · rw [if_pos hp] at h
      have h0 : i = 0 := by simpa using h.symm
      rw [h0]
      simp
    · rw [if_neg hp] at h
      rw [Option.map_eq_some'] at h
      obtain ⟨a, ha, hai⟩ := h
      have h2 := ih a ha
      rw [← hai]
      simp only [List.length_cons]
      omega

theorem colIdxAux_set_same_name (name : String) :
    ∀ (l : List (String × List Card)) (i : Nat) (cs : List Card),
    colIdxAux name (l.set i ((l.getD i dfltCol).1, cs)) = colIdxAux name l := by
  intro l
  induction l with
  | nil => intro i cs; rfl
  | cons p rest ih =>
    intro i cs
    cases i with
    | zero => simp [colIdxAux, List.getD]
    | succ n =>
      show colIdxAux name (p :: rest.set n _) = _
      unfold colIdxAux
      rw [List.getD_cons_succ, ih n cs]

theorem colIdxAux_none_iff_find (name : String) :
    ∀ l : List (String × List Card), colIdxAux name l = none ↔
    l.find? (fun p => pyLower p.1 = pyLower name) = none := by
  intro l
  induction l with
  | nil => simp [colIdxAux]
  | cons p rest ih =>
    unfold colIdxAux
    by_cases hp : pyLower p.1 = pyLower name
    · rw [if_pos hp, List.find?_cons_of_pos _ (by simpa using hp)]
      simp
    · rw [if_neg hp, List.find?_cons_of_neg _ (by simpa using hp)]
      rw [← ih]
      simp

theorem list_getD_set_self {α : Type} (d x : α) :
    ∀ (l : List α) (i : Nat), i < l.length → (l.set i x).getD i d = x := by
  intro l
  induction l with
  | nil => intro i h; simp at h
  | cons a rest ih =>
    intro i h
    cases i with
    | zero => rfl
    | succ n => exact ih n (by simpa using h)

theorem list_mem_set_self {α : Type} (x : α) :
    ∀ (l : List α) (i : Nat), i < l.length → x ∈ l.set i x := by
  intro l
  induction l with
  | nil => intro i h; simp at h
  | cons a rest ih =>
    intro i h
    cases i with
    | zero => simp [List.set]
    | succ n =>
      show x ∈ a :: rest.set n x
      exact List.mem_cons_of_mem a (ih n (by simpa using h))

theorem sum_lengths_set :
    ∀ (cols : List (String × List Card)) (i : Nat) (n : String) (cs : List Card),
    i < cols.length →
    ((cols.set i (n, cs)).map (fun p => p.2.length)).sum + (cols.getD i dfltCol).2.length
      = (cols.map (fun p => p.2.length)).sum + cs.length := by
  intro cols
  induction cols with
  | nil => intro i n cs h; simp at h
  | cons p rest ih =>
    intro i n cs h
    cases i with
    | zero =>
      show ((( n, cs) :: rest).map _).sum + p.2.length = _
      simp [List.map_cons, List.sum_cons]
      omega
    | succ m =>
      show (((p :: rest.set m (n, cs))).map _).sum + (rest.getD m dfltCol).2.length = _
      have hm := ih m n cs (by simpa using h)
      simp only [List.map_cons, List.sum_cons]
      omega

theorem pyInsertPos_le (n : Nat) (k : Int) : pyInsertPos n k ≤ n := by
  unfold pyInsertPos
  by_cases hk : k < 0
  · rw [if_pos hk]
    omega
  · rw [if_neg hk]
    omega

theorem length_pyInsert (xs : List Card) (k : Int) (x : Card) :
    (pyInsert xs k x).length = xs.length + 1 := by
  unfold pyInsert
  have := pyInsertPos_le xs.length k
  simp [List.length_append, List.length_take, List.length_drop]
  omega

theorem mem_pyInsert (xs : List Card) (k : Int) (x : Card) : x ∈ pyInsert xs k x := by
  unfold pyInsert
  simp

theorem colIdxAux_popCard (name : String) (b : Board) (i k : Nat) :
    colIdxAux name (popCard b i k) = colIdx b name := by
  unfold popCard colIdx
  exact colIdxAux_set_same_name name b.columns i _

theorem board_move_some (b : Board) (fc : String) (fi : Int) (tc : String) (ti : Int)
    (i j : Nat) (hif : colIdx b fc = some i) (hit : colIdx b tc = some j) :
    board_move b fc fi tc ti =
      if fi < 0 ∨ ((b.columns.getD i dfltCol).2.length : Int) ≤ fi then .error .badRequest
      else .ok ⟨insertCard (popCard b i fi.toNat) j ti
        ((b.columns.getD i dfltCol).2.getD fi.toNat dfltCard)⟩ := by
  unfold board_move
  rw [hif, hit]

theorem terminal_move_some (b : Board) (fromCol : String) (idx : Nat) (toCol : String)
    (i j : Nat) (hi : colIdx b fromCol = some i)
    (hj : colIdxAux toCol (popCard b i idx) = some j) :
    terminal_move b fromCol idx toCol
      = ⟨(popCard b i idx).set j (((popCard b i idx).getD j dfltCol).1,
          ((popCard b i idx).getD j dfltCol).2
            ++ [(b.columns.getD i dfltCol).2.getD idx dfltCard])⟩ := by
  unfold terminal_move
  rw [hi]
  show (match colIdxAux toCol (popCard b i idx) with
    | none => ({ columns := popCard b i idx } : Board)
    | some j =>
      (⟨(popCard b i idx).set j (((popCard b i idx).getD j dfltCol).1,
          ((popCard b i idx).getD j dfltCol).2
            ++ [(b.columns.getD i dfltCol).2.getD idx dfltCard])⟩ : Board)) = _
  rw [hj]

theorem cardAt_some (b : Board) (cn : String) (idx : Int) (i : Nat)
    (h : colIdx b cn = some i) :
    cardAt b cn idx
      = if idx < 0 ∨ ((b.columns.getD i dfltCol).2.length : Int) ≤ idx then none
        else some ((b.columns.getD i dfltCol).2.getD idx.toNat dfltCard) := by
  unfold cardAt
  rw [h]

/-! ## Claim C3: moving a card preserves the cards -/

/-- Claim C3: whenever a move succeeds — through the REST endpoint (valid
source column, valid source index, valid destination column) or through the
terminal flow — the total number of cards over all columns is unchanged, and
the moved card itself (title, meta and body) reappears unmodified among the
board's cards. -/
theorem C3_move_preserves_cards (b : Board) (fc : String) (fi : Int) (tc : String)
    (ti : Int) (b2 : Board) (h : board_move b fc fi tc ti = .ok b2) :
    (totalCards b2 = totalCards b ∧
      ∀ c : Card, cardAt b fc fi = some c → c ∈ allCards b2) ∧
    (∀ (b' : Board) (fc' tc' : String) (idx i j : Nat),
      colIdx b' fc' = some i → colIdx b' tc' = some j →
      idx < (b'.columns.getD i dfltCol).2.length →
      totalCards (terminal_move b' fc' idx tc') = totalCards b' ∧
      (b'.columns.getD i dfltCol).2.getD idx dfltCard
        ∈ allCards (terminal_move b' fc' idx tc')) := by
  constructor
  · cases hif : colIdx b fc with
    | none =>
      unfold board_move at h
      rw [hif] at h
      exact absurd h (by simp)
    | some i =>
      cases hit : colIdx b tc with
      | none =>
        unfold board_move at h
        rw [hif, hit] at h
        exact absurd h (by simp)
      | some j =>
        rw [board_move_some b fc fi tc ti i j hif hit] at h
        by_cases hrange : fi < 0 ∨ ((b.columns.getD i dfltCol).2.length : Int) ≤ fi
        · rw [if_pos hrange] at h
          exact absurd h (by simp)
        · rw [if_neg hrange] at h
          have hb2 : b2 = ⟨insertCard (popCard b i fi.toNat) j ti
              ((b.columns.getD i dfltCol).2.getD fi.toNat dfltCard)⟩ :=
            (Except.ok.inj h).symm
          subst hb2
          have hi : i < b.columns.length := colIdxAux_lt fc b.columns i hif
          have hj : j < b.columns.length := colIdxAux_lt tc b.columns j hit
          have hlt : fi.toNat < (b.columns.getD i dfltCol).2.length := by omega
          have hjp : j < (popCard b i fi.toNat).length := by
            unfold popCard
            rw [List.length_set]
            exact hj
          constructor
          · show totalCards ⟨insertCard (popCard b i fi.toNat) j ti _⟩ = _
            have hA := sum_lengths_set b.columns i ((b.columns.getD i dfltCol).1)
              ((b.columns.getD i dfltCol).2.eraseIdx fi.toNat) hi
            have hB := sum_lengths_set (popCard b i fi.toNat) j
              (((popCard b i fi.toNat).getD j dfltCol).1)
              (pyInsert ((popCard b i fi.toNat).getD j dfltCol).2
                (min ti ((((popCard b i fi.toNat).getD j dfltCol).2.length : Int)))
                ((b.columns.getD i dfltCol).2.getD fi.toNat dfltCard)) hjp
            have hE : ((b.columns.getD i dfltCol).2.eraseIdx fi.toNat).length
                = (b.columns.getD i dfltCol).2.length - 1 := by
              rw [List.length_eraseIdx]
              rw [if_pos hlt]
            have hP := length_pyInsert ((popCard b i fi.toNat).getD j dfltCol).2
              (min ti ((((popCard b i fi.toNat).getD j dfltCol).2.length : Int)))
              ((b.columns.getD i dfltCol).2.getD fi.toNat dfltCard)
            simp only [totalCards, insertCard, popCard] at hA hB hP ⊢
            omega
          · intro c hc
            rw [cardAt_some b fc fi i hif, if_neg hrange] at hc
            have hcc := Option.some.inj hc
            rw [← hcc]
            unfold allCards insertCard
            rw [List.mem_flatten]
            refine ⟨pyInsert ((popCard b i fi.toNat).getD j dfltCol).2
              (min ti ((((popCard b i fi.toNat).getD j dfltCol).2.length : Int)))
              ((b.columns.getD i dfltCol).2.getD fi.toNat dfltCard), ?_, mem_pyInsert _ _ _⟩
            exact List.mem_map_of_mem _ (list_mem_set_self _ _ _ hjp)
  · intro b' fc' tc' idx i j hi' hj' hidx
    have hjaux : colIdxAux tc' (popCard b' i idx) = some j := by
      rw [colIdxAux_popCard]
      exact hj'
    rw [terminal_move_some b' fc' idx tc' i j hi' hjaux]
    have hi : i < b'.columns.length := colIdxAux_lt fc' b'.columns i hi'
    have hj : j < b'.columns.length := colIdxAux_lt tc' b'.columns j hj'
    have hjp : j < (popCard b' i idx).length := by
      unfold popCard
      rw [List.length_set]
      exact hj
    constructor
    · have hA := sum_lengths_set b'.columns i ((b'.columns.getD i dfltCol).1)
        ((b'.columns.getD i dfltCol).2.eraseIdx idx) hi
      have hB := sum_lengths_set (popCard b' i idx) j
        (((popCard b' i idx).getD j dfltCol).1)
        (((popCard b' i idx).getD j dfltCol).2
          ++ [(b'.columns.getD i dfltCol).2.getD idx dfltCard]) hjp
      have hE : ((b'.columns.getD i dfltCol).2.eraseIdx idx).length
          = (b'.columns.getD i dfltCol).2.length - 1 := by
        rw [List.length_eraseIdx]
        rw [if_pos hidx]
      simp only [totalCards, popCard] at hA hB ⊢
      simp only [List.length_append, List.length_cons, List.length_nil] at hB
      omega
    · unfold allCards
      rw [List.mem_flatten]
      refine ⟨((popCard b' i idx).getD j dfltCol).2
        ++ [(b'.columns.getD i dfltCol).2.getD idx dfltCard], ?_, by simp⟩
      exact List.mem_map_of_mem _ (list_mem_set_self _ _ _ hjp)

def c3board : Board :=
  ⟨[(("A"), [⟨("one"), [], ""⟩, ⟨("two"), [], ""⟩]), (("B"), [⟨("three"), [], ""⟩])]⟩

/-- Claim C3, witness: moving card `two` from column `A` to position 5 of
column `B` keeps three cards in total and keeps the card intact. -/
theorem C3_move_witness :
    (totalCards ⟨[(("A"), [⟨("one"), [], ""⟩]),
        (("B"), [⟨("three"), [], ""⟩, ⟨("two"), [], ""⟩])]⟩ = totalCards c3board ∧
      ∀ c : Card, cardAt c3board ("A") 1 = some c →
        c ∈ allCards ⟨[(("A"), [⟨("one"), [], ""⟩]),
          (("B"), [⟨("three"), [], ""⟩, ⟨("two"), [], ""⟩])]⟩) ∧
    (∀ (b' : Board) (fc' tc' : String) (idx i j : Nat),
      colIdx b' fc' = some i → colIdx b' tc' = some j →
      idx < (b'.columns.getD i dfltCol).2.length →
      totalCards (terminal_move b' fc' idx tc') = totalCards b' ∧
      (b'.columns.getD i dfltCol).2.getD idx dfltCard
        ∈ allCards (terminal_move b' fc' idx tc')) :=
  C3_move_preserves_cards c3board ("A") 1 ("B") 5
    ⟨[(("A"), [⟨("one"), [], ""⟩]),
      (("B"), [⟨("three"), [], ""⟩, ⟨("two"), [], ""⟩])]⟩ rfl

/-! ## Claim C7: the defaultExpanded flag on edit -/

theorem board_edit_some (b : Board) (cn : String) (idx : Int) (t : String)
    (m : List (String × String)) (body : String) (i : Nat) (h : colIdx b cn = some i) :
    board_edit b cn idx t m body
      = if idx < 0 ∨ ((b.columns.getD i dfltCol).2.length : Int) ≤ idx then
          .error .badRequest
        else .ok ⟨b.columns.set i ((b.columns.getD i dfltCol).1,
          (b.columns.getD i dfltCol).2.set idx.toNat ⟨t, m, body⟩)⟩ := by
  unfold board_edit
  rw [h]

/-- Claim C7, counterexample: a REST edit that sets a non-empty body on a
card whose meta has no `defaultExpanded` key stores the card with the
payload meta verbatim — no `defaultExpanded` entry is added. -/
theorem C7_rest_edit_counterexample :
    board_edit ⟨[(("A"), [⟨("t"), [], ""⟩])]⟩ ("A") 0 ("t") [] ("hello")
      = .ok ⟨[(("A"), [⟨("t"), [], ("hello")⟩])]⟩ := rfl

/-- Claim C7 (amended): only the terminal edit flow sets `defaultExpanded`:
when it stores a non-empty body on a card without that exact-case key it
appends `defaultExpanded: false` to the meta mapping; the REST edit endpoint
instead overwrites the card's title, meta and body verbatim with the
payload, with no `defaultExpanded` logic. -/
theorem C7_edit_default_expanded (c : Card) (nb : String) (hnb : nb ≠ "")
    (hno : metaHasKey c.meta ("defaultExpanded") = false) :
    edit_set_body c nb = ⟨c.title, c.meta ++ [(("defaultExpanded"), ("false"))], nb⟩ ∧
    (∀ (b : Board) (cn : String) (i : Int) (t : String) (m : List (String × String))
      (bd : String) (b2 : Board) (j : Nat), board_edit b cn i t m bd = .ok b2 →
      colIdx b cn = some j →
      (b2.columns.getD j dfltCol).2.getD i.toNat dfltCard = ⟨t, m, bd⟩) := by
  constructor
  · unfold edit_set_body
    rw [if_pos ⟨hnb, hno⟩]
    have hnp : ∀ p ∈ c.meta, p.1 ≠ ("defaultExpanded") := by
      intro p hp hpk
      have hany : c.meta.any (fun q => q.1 = ("defaultExpanded")) = true :=
        List.any_eq_true.2 ⟨p, hp, by simpa using hpk⟩
      unfold metaHasKey at hno
      simp [hany] at hno
    rw [metaInsert_not_mem c.meta _ _ hnp]
  · intro b cn i t m bd b2 j h hj
    rw [board_edit_some b cn i t m bd j hj] at h
    by_cases hr : i < 0 ∨ ((b.columns.getD j dfltCol).2.length : Int) ≤ i
    · rw [if_pos hr] at h
      exact absurd h (by simp)
    · rw [if_neg hr] at h
      have hb2 : b2 = ⟨b.columns.set j ((b.columns.getD j dfltCol).1,
          (b.columns.getD j dfltCol).2.set i.toNat ⟨t, m, bd⟩)⟩ := (Except.ok.inj h).symm
      subst hb2
      have hjlen : j < b.columns.length := colIdxAux_lt cn b.columns j hj
      have hilen : i.toNat < (b.columns.getD j dfltCol).2.length := by omega
      show ((b.columns.set j ((b.columns.getD j dfltCol).1,
          (b.columns.getD j dfltCol).2.set i.toNat ⟨t, m, bd⟩)).getD j dfltCol).2.getD
            i.toNat dfltCard = _
      rw [list_getD_set_self dfltCol _ b.columns j hjlen]
      exact list_getD_set_self dfltCard _ _ i.toNat hilen

/-- Claim C7, witness: the terminal edit on a card with a `due` entry and no
`defaultExpanded` key appends the flag. -/
theorem C7_edit_witness :
    edit_set_body ⟨("t"), [(("due"), ("2026-01-01"))], ""⟩ ("hello")
      = ⟨("t"), [(("due"), ("2026-01-01")), (("defaultExpanded"), ("false"))], ("hello")⟩ :=
  (C7_edit_default_expanded ⟨("t"), [(("due"), ("2026-01-01"))], ""⟩ ("hello")
    (by decide) (by decide)).1

/-! ## Claim C8: REST error handling leaves the file untouched -/

theorem board_delete_some (b : Board) (cn : String) (idx : Int) (i : Nat)
    (h : colIdx b cn = some i) :
    board_delete b cn idx
      = if idx < 0 ∨ ((b.columns.getD i dfltCol).2.length : Int) ≤ idx then
          .error .badRequest
        else .ok ⟨b.columns.set i ((b.columns.getD i dfltCol).1,
          (b.columns.getD i dfltCol).2.eraseIdx idx.toNat)⟩ := by
  unfold board_delete
  rw [h]

/-- Claim C8: every REST mutation resolves its references against a freshly
parsed document (structural in `runEndpoint`); an unknown column name yields
the 404 error and leaves the file unchanged (for add, delete, edit, and both
columns of move); a known column with an out-of-range index yields the 400
error and leaves the file unchanged; and the name resolution agrees with
`Board.get_column` (the `_col_or_404` helper). -/
theorem C8_rest_error_handling (file cn cn2 t bd : String) (m : List (String × String))
    (i ti : Int) :
    (∀ b : Board, colIdx b cn = none ↔ b.get_column cn = none) ∧
    (colIdx (parse_board file) cn = none →
      runEndpoint file (fun b => board_add b cn t m bd) = (.error (.notFound cn), file) ∧
      runEndpoint file (fun b => board_delete b cn i) = (.error (.notFound cn), file) ∧
      runEndpoint file (fun b => board_edit b cn i t m bd) = (.error (.notFound cn), file) ∧
      runEndpoint file (fun b => board_move b cn i cn2 ti) = (.error (.notFound cn), file)) ∧
    (∀ k, colIdx (parse_board file) cn = some k →
      colIdx (parse_board file) cn2 = none →
      runEndpoint file (fun b => board_move b cn i cn2 ti)
        = (.error (.notFound cn2), file)) ∧
    (∀ k, colIdx (parse_board file) cn = some k →
      (i < 0 ∨ (((parse_board file).columns.getD k dfltCol).2.length : Int) ≤ i) →
      runEndpoint file (fun b => board_delete b cn i) = (.error .badRequest, file) ∧
      runEndpoint file (fun b => board_edit b cn i t m bd) = (.error .badRequest, file) ∧
      (∀ k2, colIdx (parse_board file) cn2 = some k2 →
        runEndpoint file (fun b => board_move b cn i cn2 ti)
          = (.error .badRequest, file))) := by
  refine ⟨?_, ?_, ?_, ?_⟩
  · intro b
    rw [show colIdx b cn = colIdxAux cn b.columns from rfl, colIdxAux_none_iff_find]
    unfold Board.get_column
    constructor
    · intro hf
      rw [hf]
      rfl
    · intro hm
      cases hfind : b.columns.find? (fun p => pyLower p.1 = pyLower cn) with
      | none => rfl
      | some q =>
        rw [hfind] at hm
        exact absurd hm (by simp)
  · intro h404
    refine ⟨?_, ?_, ?_, ?_⟩
    · simp only [runEndpoint, board_add]
      rw [h404]
    · simp only [runEndpoint, board_delete]
      rw [h404]
    · simp only [runEndpoint, board_edit]
      rw [h404]
    · simp only [runEndpoint, board_move]
      rw [h404]
  · intro k hk h2none
    simp only [runEndpoint, board_move]
    rw [hk, h2none]
  · intro k hk hrange
    refine ⟨?_, ?_, ?_⟩
    · simp only [runEndpoint]
      rw [board_delete_some (parse_board file) cn i k hk, if_pos hrange]
    · simp only [runEndpoint]
      rw [board_edit_some (parse_board file) cn i t m bd k hk, if_pos hrange]
    · intro k2 hk2
      simp only [runEndpoint]
      rw [board_move_some (parse_board file) cn i cn2 ti k k2 hk hk2, if_pos hrange]

/-- Claim C8, witness: against the one-column file `## A`, adding to the
unknown column `B` fails with the 404 error and leaves the file text
unchanged, and deleting index 5 of the empty column `A` fails with the 400
error and leaves the file text unchanged. -/
theorem C8_rest_witness :
    runEndpoint ("## A\n") (fun b => board_add b ("B") ("t") [] ("x"))
      = (.error (.notFound ("B")), ("## A\n")) ∧
    runEndpoint ("## A\n") (fun b => board_delete b ("A") 5)
      = (.error .badRequest, ("## A\n")) :=
  ⟨((C8_rest_error_handling ("## A\n") ("B") ("C") ("t") ("x") [] 0 0).2.1 rfl).1,
   ((C8_rest_error_handling ("## A\n") ("A") ("C") ("t") ("x") [] 5 0).2.2.2 0 rfl
      (Or.inr (by decide))).1⟩

/-! ## Claim C4: due dates (`_parse_due` and the dashboard classification)

`datetime.date` is modelled by a year/month/day triple with Python's
lexicographic comparison; `date.toordinal()` is the proleptic-Gregorian day
count CPython computes (`_ymd2ord`), and date subtraction
(`(a - b).days`) is the difference of ordinals. -/

/-- A `datetime.date`: year, month, day. -/
structure PDate where
  year : Nat
  month : Nat
  day : Nat
deriving Repr, DecidableEq

/-- Gregorian leap year, as `calendar.isleap` / `datetime`. -/
def isLeap (y : Nat) : Bool := decide ((y % 4 = 0 ∧ ¬ y % 100 = 0) ∨ y % 400 = 0)

def daysInMonth (leap : Bool) (m : Nat) : Nat :=
  if m = 2 then (if leap then 29 else 28)
  else if m = 4 ∨ m = 6 ∨ m = 9 ∨ m = 11 then 30
  else 31

/-- Days in the months strictly before month `m`. -/
def daysBeforeMonth (leap : Bool) : Nat → Nat
  | 0 => 0
  | 1 => 0
  | m + 1 => daysBeforeMonth leap m + daysInMonth leap m

/-- Days in the years strictly before year `y` (CPython `_days_before_year`). -/
def daysBeforeYear (y : Nat) : Nat :=
  365 * (y - 1) + (y - 1) / 4 - (y - 1) / 100 + (y - 1) / 400

/-- `date.toordinal()` (CPython `_ymd2ord`). -/
def toOrdinal (d : PDate) : Nat :=
  daysBeforeYear d.year + daysBeforeMonth (isLeap d.year) d.month + d.day

/-- The dates `datetime.date` accepts (`MINYEAR = 1`, `MAXYEAR = 9999`). -/
def validDate (d : PDate) : Prop :=
  1 ≤ d.year ∧ d.year ≤ 9999 ∧ 1 ≤ d.month ∧ d.month ≤ 12 ∧
  1 ≤ d.day ∧ d.day ≤ daysInMonth (isLeap d.year) d.month

instance (d : PDate) : Decidable (validDate d) := by
  unfold validDate
  exact inferInstance

/-- Python date comparison `a < b`: lexicographic on (year, month, day). -/
def pltDate (a b : PDate) : Bool :=
  decide (a.year < b.year ∨ (a.year = b.year ∧
    (a.month < b.month ∨ (a.month = b.month ∧ a.day < b.day))))

/-- Python date comparison `a <= b`. -/
def pleDate (a b : PDate) : Bool := pltDate a b || a == b

/-- Python `(a - b).days`. -/
def dateSub (a b : PDate) : Int := (toOrdinal a : Int) - (toOrdinal b : Int)

def digitChar (n : Nat) : Char := Char.ofNat (48 + n)

def isDigit (c : Char) : Bool := 48 ≤ c.toNat && c.toNat ≤ 57

def digitVal (c : Char) : Nat := c.toNat - 48

/-- `str(date)`: zero-padded `YYYY-MM-DD`. -/
def dateToIso (d : PDate) : String :=
  ⟨[digitChar (d.year / 1000 % 10), digitChar (d.year / 100 % 10),
    digitChar (d.year / 10 % 10), digitChar (d.year % 10), '-',
    digitChar (d.month / 10 % 10), digitChar (d.month % 10), '-',
    digitChar (d.day / 10 % 10), digitChar (d.day % 10)]⟩

/-- `datetime.date.fromisoformat` on the canonical `YYYY-MM-DD` form (the
only form `str(date)` produces); anything else raises `ValueError` in the
source, modelled as `none`. -/
def parseIsoDate (s : String) : Option PDate :=
  match s.data with
  | [y1, y2, y3, y4, h1, m1, m2, h2, d1, d2] =>
    if isDigit y1 ∧ isDigit y2 ∧ isDigit y3 ∧ isDigit y4 ∧ h1 = '-' ∧
       isDigit m1 ∧ isDigit m2 ∧ h2 = '-' ∧ isDigit d1 ∧ isDigit d2 then
      if 1 ≤ ((digitVal y1 * 10 + digitVal y2) * 10 + digitVal y3) * 10 + digitVal y4 ∧
         ((digitVal y1 * 10 + digitVal y2) * 10 + digitVal y3) * 10 + digitVal y4 ≤ 9999 ∧
         1 ≤ digitVal m1 * 10 + digitVal m2 ∧ digitVal m1 * 10 + digitVal m2 ≤ 12 ∧
         1 ≤ digitVal d1 * 10 + digitVal d2 ∧
         digitVal d1 * 10 + digitVal d2 ≤
           daysInMonth
             (isLeap (((digitVal y1 * 10 + digitVal y2) * 10 + digitVal y3) * 10
               + digitVal y4))
             (digitVal m1 * 10 + digitVal m2) then
        some ⟨((digitVal y1 * 10 + digitVal y2) * 10 + digitVal y3) * 10 + digitVal y4,
              digitVal m1 * 10 + digitVal m2, digitVal d1 * 10 + digitVal d2⟩
      else none
    else none
  | _ => none

/-- `_parse_due`: the card's `due` meta value; a missing key or falsy (empty)
value gives `None`, a `ValueError` from `date.fromisoformat` gives `None`. -/
def parse_due (c : Card) : Option PDate :=
  match metaGet c.meta ("due") with
  | none => none
  | some v => if v = "" then none else parseIsoDate v

/-- The dashboard's urgency classes for a card outside the `In Progress` and
`Done` columns (`_show_dashboard`): `noDue` is a card never added to the
focus list for lack of a due date, `later` one past the week window. -/
inductive DueClass where
  | noDue
  | overdue (days : Int)
  | dueToday
  | dueTomorrow
  | dueThisWeek
  | later
deriving Repr, DecidableEq

/-- The `elif due:` branch of `_show_dashboard` for a non-WIP column:
overdue when `due < today`, otherwise due-today / due-tomorrow / this-week
when `due <= week_end`, otherwise not listed. (Cards in the `In Progress`
column are tagged `in progress` instead, and `Done` is skipped.) -/
def classify (today weekEnd : PDate) (due : Option PDate) : DueClass :=
  match due with
  | none => .noDue
  | some d =>
    if pltDate d today then .overdue (dateSub today d)
    else if pleDate d weekEnd then
      if dateSub d today = 0 then .dueToday
      else if dateSub d today = 1 then .dueTomorrow
      else .dueThisWeek
    else .later

theorem classify_none (today weekEnd : PDate) : classify today weekEnd none = .noDue := rfl

theorem classify_some (today weekEnd d : PDate) :
    classify today weekEnd (some d)
      = if pltDate d today then .overdue (dateSub today d)
        else if pleDate d weekEnd then
          if dateSub d today = 0 then .dueToday
          else if dateSub d today = 1 then .dueTomorrow
          else .dueThisWeek
        else .later := rfl

theorem parse_due_none (c : Card) (h : metaGet c.meta ("due") = none) :
    parse_due c = none := by
  unfold parse_due
  rw [h]

theorem parse_due_some (c : Card) (v : String) (h : metaGet c.meta ("due") = some v) :
    parse_due c = if v = "" then none else parseIsoDate v := by
  unfold parse_due
  rw [h]

/-! ## Date arithmetic lemmas -/

theorem isLeap_iff (y : Nat) :
    isLeap y = true ↔ ((y % 4 = 0 ∧ ¬ y % 100 = 0) ∨ y % 400 = 0) := by
  unfold isLeap
  simp

theorem digitChar_toNat (n : Nat) (h : n < 10) : (digitChar n).toNat = 48 + n := by
  unfold digitChar Char.ofNat
  rw [dif_pos (Or.inl (by omega))]
  rfl

theorem isDigit_digitChar_mod (k : Nat) : isDigit (digitChar (k % 10)) = true := by
  unfold isDigit
  rw [digitChar_toNat (k % 10) (Nat.mod_lt _ (by omega))]
  have := Nat.mod_lt k (show 0 < 10 by omega)
  simp
  omega

theorem digitVal_digitChar_mod (k : Nat) : digitVal (digitChar (k % 10)) = k % 10 := by
  unfold digitVal
  rw [digitChar_toNat (k % 10) (Nat.mod_lt _ (by omega))]
  omega

theorem daysBeforeMonth_succ (leap : Bool) (m : Nat) (h : 1 ≤ m) :
    daysBeforeMonth leap (m + 1) = daysBeforeMonth leap m + daysInMonth leap m := by
  cases m with
  | zero => exact absurd h (by omega)
  | succ k => rfl

theorem daysBeforeMonth_le (leap : Bool) (m1 : Nat) :
    ∀ m2 : Nat, 1 ≤ m1 → m1 ≤ m2 →
    daysBeforeMonth leap m1 ≤ daysBeforeMonth leap m2 := by
  intro m2
  induction m2 with
  | zero =>
    intro h1 h12
    exact absurd (le_trans h1 h12) (by omega)
  | succ k ih =>
    intro h1 h12
    rcases Nat.lt_or_ge m1 (k + 1) with hlt | hge
    · have hk1 : 1 ≤ k := by omega
      have hle := ih h1 (by omega)
      rw [daysBeforeMonth_succ leap k hk1]
      omega
    · have hm : m1 = k + 1 := by omega
      rw [hm]

theorem daysBeforeMonth_13 (leap : Bool) :
    daysBeforeMonth leap 13 = 365 + (if leap then 1 else 0) := by
  cases leap <;> simp [daysBeforeMonth, daysInMonth]

theorem daysBeforeMonth_add_day_le (leap : Bool) (m d : Nat) (h1 : 1 ≤ m) (hm : m ≤ 12)
    (hd : d ≤ daysInMonth leap m) :
    daysBeforeMonth leap m + d ≤ 365 + (if leap then 1 else 0) := by
  have hstep : daysBeforeMonth leap m + d ≤ daysBeforeMonth leap (m + 1) := by
    rw [daysBeforeMonth_succ leap m h1]
    omega
  have hle : daysBeforeMonth leap (m + 1) ≤ daysBeforeMonth leap 13 :=
    daysBeforeMonth_le leap (m + 1) 13 (by omega) (by omega)
  have h13 := daysBeforeMonth_13 leap
  cases leap <;> simp at h13 ⊢ <;> omega

theorem daysInMonth_le (leap : Bool) (m : Nat) : daysInMonth leap m ≤ 31 := by
  unfold daysInMonth
  split
  · split <;> omega
  · split <;> omega

set_option maxHeartbeats 2000000 in
theorem daysBeforeYear_succ (y : Nat) (h : 1 ≤ y) :
    daysBeforeYear (y + 1) = daysBeforeYear y + (if isLeap y then 366 else 365) := by
  by_cases hly : isLeap y = true
  · rw [if_pos hly]
    have hp := (isLeap_iff y).1 hly
    unfold daysBeforeYear
    omega
  · rw [if_neg hly]
    have hp : ¬((y % 4 = 0 ∧ ¬ y % 100 = 0) ∨ y % 400 = 0) :=
      fun hc => hly ((isLeap_iff y).2 hc)
    unfold daysBeforeYear
    omega

theorem daysBeforeYear_le (y1 y2 : Nat) (h : y1 ≤ y2) :
    daysBeforeYear y1 ≤ daysBeforeYear y2 := by
  unfold daysBeforeYear
  have h1 : y1 - 1 ≤ y2 - 1 := by omega
  have h4 : (y1 - 1) / 4 ≤ (y2 - 1) / 4 := Nat.div_le_div_right h1
  have h100 : (y1 - 1) / 100 ≤ (y2 - 1) / 100 := Nat.div_le_div_right h1
  have h400 : (y1 - 1) / 400 ≤ (y2 - 1) / 400 := Nat.div_le_div_right h1
  omega

/-- `toordinal` is strictly monotone with respect to Python's lexicographic
date comparison. -/
theorem toOrdinal_lt (a b : PDate) (hva : validDate a) (hvb : validDate b)
    (hlt : pltDate a b = true) : toOrdinal a < toOrdinal b := by
  obtain ⟨ha1, ha2, ha3, ha4, ha5, ha6⟩ := hva
  obtain ⟨hb1, hb2, hb3, hb4, hb5, hb6⟩ := hvb
  unfold pltDate at hlt
  rw [decide_eq_true_eq] at hlt
  unfold toOrdinal
  rcases hlt with hy | ⟨hy, hmd⟩
  · have hbound := daysBeforeMonth_add_day_le (isLeap a.year) a.month a.day ha3 ha4 ha6
    have hsucc := daysBeforeYear_succ a.year (by omega)
    have hmono := daysBeforeYear_le (a.year + 1) b.year (by omega)
    cases hl : isLeap a.year <;> simp [hl] at hbound hsucc <;> omega
  · rcases hmd with hm | ⟨hm, hd⟩
    · have hstep : daysBeforeMonth (isLeap a.year) a.month + a.day
          ≤ daysBeforeMonth (isLeap a.year) (a.month + 1) := by
        rw [daysBeforeMonth_succ _ a.month ha3]
        omega
      have hle2 : daysBeforeMonth (isLeap a.year) (a.month + 1)
          ≤ daysBeforeMonth (isLeap a.year) b.month :=
        daysBeforeMonth_le _ (a.month + 1) b.month (by omega) (by omega)
      rw [hy] at hstep hle2 ⊢
      omega
    · rw [hy, hm]
      omega

theorem pltDate_irrefl (a : PDate) : pltDate a a = false := by
  unfold pltDate
  simp only [decide_eq_false_iff_not]
  omega

theorem pltDate_total (a b : PDate) : pltDate a b = true ∨ a = b ∨ pltDate b a = true := by
  unfold pltDate
  simp only [decide_eq_true_eq]
  by_cases h1 : a.year = b.year
  · by_cases h2 : a.month = b.month
    · by_cases h3 : a.day = b.day
      · right; left
        cases a
        cases b
        simp_all
      · rcases Nat.lt_or_ge a.day b.day with h | h
        · left
          omega
        · right; right
          omega
    · rcases Nat.lt_or_ge a.month b.month with h | h
      · left
        omega
      · right; right
        omega
  · rcases Nat.lt_or_ge a.year b.year with h | h
    · left
      omega
    · right; right
      omega

theorem pltDate_of_ordinal_lt (a b : PDate) (hva : validDate a) (hvb : validDate b)
    (h : toOrdinal a < toOrdinal b) : pltDate a b = true := by
  rcases pltDate_total a b with hlt | heq | hgt
  · exact hlt
  · rw [heq] at h
    omega
  · have := toOrdinal_lt b a hvb hva hgt
    omega

/-- Serializing a valid date and parsing it back is the identity. -/
theorem parseIsoDate_dateToIso (d : PDate) (h : validDate d) :
    parseIsoDate (dateToIso d) = some d := by
  obtain ⟨h1, h2, h3, h4, h5, h6⟩ := h
  have hyrec : ((d.year / 1000 % 10 * 10 + d.year / 100 % 10) * 10 + d.year / 10 % 10) * 10
      + d.year % 10 = d.year := by
    have d1 : d.year / 10 / 10 = d.year / 100 := by rw [Nat.div_div_eq_div_mul]
    have d2 : d.year / 100 / 10 = d.year / 1000 := by rw [Nat.div_div_eq_div_mul]
    omega
  have hmrec : d.month / 10 % 10 * 10 + d.month % 10 = d.month := by omega
  have hdle := daysInMonth_le (isLeap d.year) d.month
  have hdrec : d.day / 10 % 10 * 10 + d.day % 10 = d.day := by omega
  unfold parseIsoDate dateToIso
  simp only [mkStr_data, digitVal_digitChar_mod, isDigit_digitChar_mod, hyrec, hmrec, hdrec]
  rw [if_pos (by simp)]
  rw [if_pos ⟨h1, h2, h3, h4, h5, h6⟩]

/-- Claim C4: for any card and any valid `today` (with the week window end
at or after today, as `week_end = today - weekday + 6 days` always is): a
`due` meta value equal to today's ISO date classifies as due-today; a value
equal to the ISO date one day before today classifies as 1-day overdue; an
absent `due` key classifies as no-due-date; and a present but unparseable
value classifies as no-due-date — in every case by total functions, never an
exception. -/
theorem C4_due_classification (c : Card) (today weekEnd : PDate)
    (hvt : validDate today) (hwe : pleDate today weekEnd = true) :
    (metaGet c.meta ("due") = some (dateToIso today) →
      classify today weekEnd (parse_due c) = .dueToday) ∧
    (∀ d : PDate, validDate d → toOrdinal d + 1 = toOrdinal today →
      metaGet c.meta ("due") = some (dateToIso d) →
      classify today weekEnd (parse_due c) = .overdue 1) ∧
    (metaGet c.meta ("due") = none → classify today weekEnd (parse_due c) = .noDue) ∧
    (∀ v : String, metaGet c.meta ("due") = some v → parseIsoDate v = none →
      classify today weekEnd (parse_due c) = .noDue) := by
  have hiso : ∀ e : PDate, dateToIso e ≠ "" := by
    intro e hc
    have hd := congrArg String.data hc
    unfold dateToIso at hd
    rw [mkStr_data] at hd
    simp at hd
  refine ⟨?_, ?_, ?_, ?_⟩
  · intro hdue
    rw [parse_due_some c _ hdue, if_neg (hiso today), parseIsoDate_dateToIso today hvt,
      classify_some]
    rw [if_neg (by simp [pltDate_irrefl])]
    rw [if_pos hwe]
    rw [if_pos (show dateSub today today = 0 from by unfold dateSub; omega)]
  · intro d hvd hord hdue
    rw [parse_due_some c _ hdue, if_neg (hiso d), parseIsoDate_dateToIso d hvd,
      classify_some]
    rw [if_pos (pltDate_of_ordinal_lt d today hvd hvt (by omega))]
    unfold dateSub
    rw [show ((toOrdinal today : Int) - (toOrdinal d : Int)) = 1 from by omega]
  · intro hdue
    rw [parse_due_none c hdue, classify_none]
  · intro v hdue hparse
    rw [parse_due_some c v hdue]
    by_cases hv0 : v = ""
    · rw [if_pos hv0, classify_none]
    · rw [if_neg hv0, hparse, classify_none]

/-- Claim C4, witness: today is 2026-10-12 (a Monday; the week ends
2026-10-18): a card due `2026-10-12` is due today, one due `2026-10-11` is
one day overdue, a card with no `due` key has no due date, and a card with
the unparseable value `soon` has no due date. -/
theorem C4_due_witness :
    classify ⟨2026, 10, 12⟩ ⟨2026, 10, 18⟩
        (parse_due ⟨("t"), [(("due"), ("2026-10-12"))], ""⟩) = .dueToday ∧
    classify ⟨2026, 10, 12⟩ ⟨2026, 10, 18⟩
        (parse_due ⟨("t"), [(("due"), ("2026-10-11"))], ""⟩) = .overdue 1 ∧
    classify ⟨2026, 10, 12⟩ ⟨2026, 10, 18⟩ (parse_due ⟨("t"), [], ""⟩) = .noDue ∧
    classify ⟨2026, 10, 12⟩ ⟨2026, 10, 18⟩
        (parse_due ⟨("t"), [(("due"), ("soon"))], ""⟩) = .noDue :=
  ⟨(C4_due_classification ⟨("t"), [(("due"), ("2026-10-12"))], ""⟩ ⟨2026, 10, 12⟩
      ⟨2026, 10, 18⟩ (by decide) (by decide)).1 (by decide),
   (C4_due_classification ⟨("t"), [(("due"), ("2026-10-11"))], ""⟩ ⟨2026, 10, 12⟩
      ⟨2026, 10, 18⟩ (by decide) (by decide)).2.1 ⟨2026, 10, 11⟩ (by decide) (by decide)
      (by decide),
   (C4_due_classification ⟨("t"), [], ""⟩ ⟨2026, 10, 12⟩ ⟨2026, 10, 18⟩ (by decide)
      (by decide)).2.2.1 rfl,
   (C4_due_classification ⟨("t"), [(("due"), ("soon"))], ""⟩ ⟨2026, 10, 12⟩
      ⟨2026, 10, 18⟩ (by decide) (by decide)).2.2.2 ("soon") (by decide) (by decide)⟩

end Kanban

